import Mathlib

/-!
h264nal: RBSP unescaping, trailing bits and the PPS parser

A shallow embedding of `src/h264_common.cc` and `src/h264_pps_parser.cc`.
Bytes are natural numbers (of which only the low eight bits are ever looked at),
`uint32_t` values are natural numbers, `int32_t` values are integers, and a
function that can return `false` / `nullptr` returns an `Option`.
-/

namespace h264nal

/-! ## UnescapeRbsp (h264_common.cc, lines 54-76) -/

/-- The `for (size_t i = 0; i < length;)` loop of `UnescapeRbsp`.  The first argument bounds the
number of iterations (each one advances `i`, so `length - i` iterations always suffice), `i` is the
loop index and `out` the output vector.  The last component of the state is a ghost counter of the
executions of the statement `i++` marked "Skip the emulation byte"; the code does not have it.
Every read `data[i]`, `data[i + 1]`, `data[i + 2]` carries the proof that it is inside the
buffer. -/
def UnescapeRbspLoop (data : List Nat) : Nat → Nat → List Nat → Nat → List Nat × Nat
  | 0, _, out, skipped => (out, skipped)
  | fuel + 1, i, out, skipped =>
    if h : i < data.length then
      if h3 : data.length - i ≥ 3 then
        if data.get ⟨i, h⟩ = 0x00 ∧ data.get ⟨i + 1, by omega⟩ = 0x00 ∧
            data.get ⟨i + 2, by omega⟩ = 0x03 then
          -- Two RBSP bytes, then skip the emulation byte.
          UnescapeRbspLoop data fuel (i + 3)
            (out ++ [data.get ⟨i, h⟩, data.get ⟨i + 1, by omega⟩]) (skipped + 1)
        else
          -- Single rbsp byte.
          UnescapeRbspLoop data fuel (i + 1) (out ++ [data.get ⟨i, h⟩]) skipped
      else
        UnescapeRbspLoop data fuel (i + 1) (out ++ [data.get ⟨i, h⟩]) skipped
    else
      (out, skipped)

/-- The function `UnescapeRbsp(data, length)`: the loop run from `i = 0` on an empty vector. -/
def UnescapeRbsp (data : List Nat) : List Nat :=
  (UnescapeRbspLoop data data.length 0 [] 0).1

/-- Ghost value: how many `0x03` emulation bytes the scan of `UnescapeRbsp` skipped. -/
def UnescapeRbspSkipped (data : List Nat) : Nat :=
  (UnescapeRbspLoop data data.length 0 [] 0).2

/-- The reference scan in the words of the specification (section 4.2): whenever the next three
bytes are `0x00 0x00 0x03` emit the two zero bytes and drop the `0x03`, otherwise emit the current
byte and advance by one. -/
def unescapeRef : List Nat → List Nat
  | 0 :: 0 :: 3 :: rest => 0 :: 0 :: unescapeRef rest
  | b :: rest => b :: unescapeRef rest
  | [] => []

/-- The escaping transform in the words of the specification (section 8), which the repository
does not implement: scanning left to right, a `0x03` byte is inserted after every `0x00 0x00` pair
that is not already followed by `0x03`. -/
def escape : List Nat → List Nat
  | 0 :: 0 :: rest =>
    match rest with
    | 3 :: _ => 0 :: 0 :: escape rest
    | _ => 0 :: 0 :: 3 :: escape rest
  | b :: rest => b :: escape rest
  | [] => []

/-! ## rtc::BitBuffer (specification, section 4.1) -/

/-- Modelled from the spec: the bit cursor `rtc::BitBuffer`, whose implementation is not among the
sources: an immutable byte buffer together with a bit-granular read position, initially 0. -/
structure BitBuffer where
  bytes : List Nat
  pos : Nat := 0
deriving DecidableEq, Repr

/-- The bit at bit position `p` of a buffer, most significant bit of each byte first. -/
def bitAt (bytes : List Nat) (p : Nat) : Nat :=
  bytes.getD (p / 8) 0 / 2 ^ (7 - p % 8) % 2

/-- The value of the `n` bits starting at bit position `p`, most significant bit first. -/
def bitsValue (bytes : List Nat) : Nat → Nat → Nat
  | _, 0 => 0
  | p, n + 1 => bitAt bytes p * 2 ^ n + bitsValue bytes (p + 1) n

/-- Modelled from the spec: `remaining_bit_count`, the bits left in the buffer from the current
position. -/
def BitBuffer.RemainingBitCount (bb : BitBuffer) : Nat :=
  8 * bb.bytes.length - bb.pos

/-- Modelled from the spec: `current_offset`, the byte index and the sub-byte bit offset of the
next unread bit. -/
def BitBuffer.GetCurrentOffset (bb : BitBuffer) : Nat × Nat :=
  (bb.pos / 8, bb.pos % 8)

/-- Modelled from the spec: `read_bits(n)` consumes the next `n` bits, most significant bit first,
and advances the position by `n`; it fails if fewer than `n` bits remain. -/
def BitBuffer.ReadBits (bb : BitBuffer) (n : Nat) : Option (Nat × BitBuffer) :=
  if n ≤ bb.RemainingBitCount then
    some (bitsValue bb.bytes bb.pos n, { bb with pos := bb.pos + n })
  else
    none

/-- The number of zero bits from position `p` up to the next `1` bit, looking at no more than
`remaining` bits; `none` when the run of zeros reaches the end of the buffer. -/
def leadingZeroBits (bytes : List Nat) : Nat → Nat → Option Nat
  | _, 0 => none
  | p, remaining + 1 =>
    if bitAt bytes p = 1 then some 0
    else (leadingZeroBits bytes (p + 1) remaining).map (· + 1)

/-- Modelled from the spec: `read_unsigned_exp_golomb` counts the leading zero bits up to a `1`
bit, reads that many further bits as the suffix and returns `2^leadingZeroBits - 1 + suffix`.  It
fails if the prefix or the suffix runs off the end of the buffer, or if the decoded integer, which
has `leadingZeroBits + 1` significant bits, is wider than 32 bits. -/
def BitBuffer.ReadExponentialGolomb (bb : BitBuffer) : Option (Nat × BitBuffer) :=
  match leadingZeroBits bb.bytes bb.pos bb.RemainingBitCount with
  | none => none
  | some zeros =>
    if 32 < zeros + 1 then none
    else
      match ({ bb with pos := bb.pos + zeros + 1 } : BitBuffer).ReadBits zeros with
      | none => none
      | some (suffix, bb1) => some (2 ^ zeros - 1 + suffix, bb1)

/-- Modelled from the spec: `read_signed_exp_golomb` reads an unsigned code `k` and maps it to
`(-1)^(k+1) * ceil(k/2)`: the codes 0, 1, 2, 3, 4, ... give 0, +1, -1, +2, -2, ... -/
def BitBuffer.ReadSignedExponentialGolomb (bb : BitBuffer) : Option (Int × BitBuffer) :=
  match bb.ReadExponentialGolomb with
  | none => none
  | some (k, bb1) =>
    some (if k % 2 = 0 then -((k / 2 : Nat) : Int) else (((k + 1) / 2 : Nat) : Int), bb1)

/-- The position of the last bit equal to 1 among the first `n` bits of a buffer, found by
scanning backward from bit `n - 1`; `none` when none of these bits is set. -/
def lastSetBit (bytes : List Nat) : Nat → Option Nat
  | 0 => none
  | n + 1 => if bitAt bytes n = 1 then some n else lastSetBit bytes n

/-- Modelled from the spec: `last_set_bit_offset` scans from the end of the entire buffer backward
for the least-significant `1` bit present and gives its byte index and bit offset within the byte
(counted as `current_offset` counts them); it fails if the buffer contains no set bit at all. -/
def BitBuffer.GetLastBitOffset (bb : BitBuffer) : Option (Nat × Nat) :=
  (lastSetBit bb.bytes (8 * bb.bytes.length)).map (fun q => (q / 8, q % 8))

/-! ## Syntax functions (h264_common.cc, lines 79-157) -/

/-- The function `byte_aligned`: the sub-byte bit offset of the current position is 0. -/
def byte_aligned (bb : BitBuffer) : Bool :=
  bb.GetCurrentOffset.2 == 0

/-- The `while (!byte_aligned(bit_buffer))` loop of `rbsp_trailing_bits`: each iteration reads one
`rbsp_alignment_zero_bit`.  An iteration that continues moves the position one bit closer to the
next byte boundary, which is the termination measure. -/
def rbsp_trailing_bits_loop (bb : BitBuffer) : Bool × BitBuffer :=
  if h : byte_aligned bb = false then
    match hr : bb.ReadBits 1 with
    | none => (false, bb)
    | some (bits_tmp, bb1) =>
      if bits_tmp ≠ 0 then (false, bb1)
      else rbsp_trailing_bits_loop bb1
  else
    (true, bb)
termination_by (8 - bb.pos % 8) % 8
decreasing_by
  simp only [byte_aligned, BitBuffer.GetCurrentOffset, beq_eq_false_iff_ne, ne_eq] at h
  simp only [BitBuffer.ReadBits] at hr
  split at hr
  · simp only [Option.some.injEq, Prod.mk.injEq] at hr
    rw [← hr.2]
    simp only
    omega
  · cases hr

/-- The function `rbsp_trailing_bits`: the `rbsp_stop_one_bit`, which must be 1, and then the
alignment loop.  The result is the returned `bool` and the bit buffer as the call leaves it. -/
def rbsp_trailing_bits (bb : BitBuffer) : Bool × BitBuffer :=
  match bb.ReadBits 1 with
  | none => (false, bb)
  | some (bits_tmp, bb1) =>
    if bits_tmp ≠ 1 then (false, bb1)
    else rbsp_trailing_bits_loop bb1

/-- The function `more_rbsp_data` (lines 97-134). -/
def more_rbsp_data (bb : BitBuffer) : Bool :=
  if bb.RemainingBitCount = 0 then false
  else
    match bb.GetLastBitOffset with
    | none =>
      -- no 1 bit in the full bit buffer
      false
    | some (last_one_byte_offset, last_one_bit_offset) =>
      match bb.GetCurrentOffset with
      | (cur_byte_offset, cur_bit_offset) =>
        if last_one_byte_offset > cur_byte_offset ∨
            (last_one_byte_offset = cur_byte_offset ∧ last_one_bit_offset > cur_bit_offset) then
          true
        else
          false

/-- The alignment loop of `rbsp_trailing_bits` once more, with two ghost values next to its
result: the number of iterations of the loop body, and whether the loop left through the branch
of a failed read (`if (!bit_buffer->ReadBits(&bits_tmp, 1)) return false;`). -/
def rbsp_trailing_bits_loop_trace (bb : BitBuffer) : (Bool × BitBuffer) × Nat × Bool :=
  if h : byte_aligned bb = false then
    match hr : bb.ReadBits 1 with
    | none => ((false, bb), 1, true)
    | some (bits_tmp, bb1) =>
      if bits_tmp ≠ 0 then ((false, bb1), 1, false)
      else
        ((rbsp_trailing_bits_loop_trace bb1).1, (rbsp_trailing_bits_loop_trace bb1).2.1 + 1,
          (rbsp_trailing_bits_loop_trace bb1).2.2)
  else
    ((true, bb), 0, false)
termination_by (8 - bb.pos % 8) % 8
decreasing_by
  all_goals
    simp only [byte_aligned, BitBuffer.GetCurrentOffset, beq_eq_false_iff_ne, ne_eq] at h
    simp only [BitBuffer.ReadBits] at hr
    split at hr
    · simp only [Option.some.injEq, Prod.mk.injEq] at hr
      rw [← hr.2]
      simp only
      omega
    · cases hr

/-! ## The PPS parser (h264_pps_parser.cc) -/

/-- Modelled from the spec: the entity `PpsState` of section 3, declared in a header that is not
among the sources.  A fresh state has every scalar equal to 0 and every sequence empty. -/
structure PpsState where
  pic_parameter_set_id : Nat := 0
  seq_parameter_set_id : Nat := 0
  entropy_coding_mode_flag : Nat := 0
  pic_order_present_flag : Nat := 0
  num_slice_groups_minus1 : Nat := 0
  slice_group_map_type : Nat := 0
  run_length_minus1 : List Nat := []
  top_left : List Nat := []
  bottom_right : List Nat := []
  slice_group_change_direction_flag : Nat := 0
  slice_group_change_rate_minus1 : Nat := 0
  pic_size_in_map_units_minus1 : Nat := 0
  slice_group_id : List Nat := []
  num_ref_idx_l0_active_minus1 : Nat := 0
  num_ref_idx_l1_active_minus1 : Nat := 0
  weighted_pred_flag : Nat := 0
  weighted_bipred_idc : Nat := 0
  pic_init_qp_minus26 : Int := 0
  pic_init_qs_minus26 : Int := 0
  chroma_qp_index_offset : Int := 0
  deblocking_filter_control_present_flag : Nat := 0
  constrained_intra_pred_flag : Nat := 0
  redundant_pic_cnt_present_flag : Nat := 0
deriving DecidableEq, Repr

/-- The method `PpsState::getSliceGroupIdLen` (lines 186-195), as a function of the field
`num_slice_groups_minus1`: `ceil(log2(1.0 * num_slice_groups_minus1 + 1))`.  The argument of `log2`
is at most `2^32` and so exact in double precision; the logarithm and the ceiling are taken as the
exact real-valued operations, whose composition on a natural number is `Nat.clog 2`. -/
def getSliceGroupIdLen (num_slice_groups_minus1 : Nat) : Nat :=
  Nat.clog 2 (num_slice_groups_minus1 + 1)

/-- The loop of lines 72-79: the iterations `iGroup, ..., num_slice_groups_minus1 - 1`, the first
argument being the number of iterations left.  Each reads `run_length_minus1[iGroup]`. -/
def parseRunLengthLoop : Nat → PpsState → BitBuffer → Option (PpsState × BitBuffer)
  | 0, pps, bb => some (pps, bb)
  | n + 1, pps, bb =>
    match bb.ReadExponentialGolomb with
    | none => none
    | some (golomb_tmp, bb) =>
      parseRunLengthLoop n
        { pps with run_length_minus1 := pps.run_length_minus1 ++ [golomb_tmp] } bb

/-- The loop of lines 82-95: the iterations `iGroup, ..., num_slice_groups_minus1 - 1`, the first
argument being the number of iterations left.  Each reads `top_left[iGroup]` and then
`bottom_right[iGroup]`. -/
def parseRectangleLoop : Nat → PpsState → BitBuffer → Option (PpsState × BitBuffer)
  | 0, pps, bb => some (pps, bb)
  | n + 1, pps, bb =>
    match bb.ReadExponentialGolomb with
    | none => none
    | some (golomb_tmp, bb) =>
      let pps := { pps with top_left := pps.top_left ++ [golomb_tmp] }
      match bb.ReadExponentialGolomb with
      | none => none
      | some (golomb_tmp, bb) =>
        parseRectangleLoop n { pps with bottom_right := pps.bottom_right ++ [golomb_tmp] } bb

/-- The block `if (pps->num_slice_groups_minus1 > 0) { ... }` of lines 65-125. -/
def parseSliceGroups (pps : PpsState) (bb : BitBuffer) : Option (PpsState × BitBuffer) :=
  if pps.num_slice_groups_minus1 > 0 then do
    -- slice_group_map_type  ue(v)
    let (v, bb) ← bb.ReadExponentialGolomb
    let pps := { pps with slice_group_map_type := v }
    if pps.slice_group_map_type = 0 then
      parseRunLengthLoop pps.num_slice_groups_minus1 pps bb
    else if pps.slice_group_map_type = 2 then
      parseRectangleLoop pps.num_slice_groups_minus1 pps bb
    else if pps.slice_group_map_type = 3 ∨ pps.slice_group_map_type = 4 ∨
        pps.slice_group_map_type = 5 then do
      -- slice_group_change_direction_flag  u(1)
      let (v, bb) ← bb.ReadBits 1
      let pps := { pps with slice_group_change_direction_flag := v }
      -- slice_group_change_rate_minus1  ue(v)
      let (v, bb) ← bb.ReadExponentialGolomb
      let pps := { pps with slice_group_change_rate_minus1 := v }
      some (pps, bb)
    else if pps.slice_group_map_type = 6 then do
      -- pic_size_in_map_units_minus1  ue(v)
      let (v, bb) ← bb.ReadExponentialGolomb
      let pps := { pps with pic_size_in_map_units_minus1 := v }
      -- slice_group_id  u(v)
      let slice_group_id_len := getSliceGroupIdLen pps.num_slice_groups_minus1
      let (bits_tmp, bb) ← bb.ReadBits slice_group_id_len
      some ({ pps with slice_group_id := pps.slice_group_id ++ [bits_tmp] }, bb)
    else
      some (pps, bb)
  else
    some (pps, bb)

/-- One syntax element of `ParsePps`: `if (!bit_buffer->Read...(&(pps->field))) return nullptr;`.
The read is applied to the bit buffer; a failure ends the parse, a success stores the value in the
state. -/
def readField {α : Type} (read : BitBuffer → Option (α × BitBuffer))
    (store : PpsState → α → PpsState) (st : PpsState × BitBuffer) :
    Option (PpsState × BitBuffer) :=
  match read st.2 with
  | none => none
  | some (v, bb) => some (store st.1 v, bb)

/-- The syntax-field reads of `ParsePps(rtc::BitBuffer*)`, lines 38-179: everything before the
call of `rbsp_trailing_bits`, in the order of the source.  The result is the state and the bit
buffer as the reads leave it; `none` is the `return nullptr` of a failed read. -/
def ParsePpsFields (bb : BitBuffer) : Option (PpsState × BitBuffer) :=
  some (({} : PpsState), bb)
    -- pic_parameter_set_id  ue(v)
    >>= readField BitBuffer.ReadExponentialGolomb
      (fun pps v => { pps with pic_parameter_set_id := v })
    -- seq_parameter_set_id  ue(v)
    >>= readField BitBuffer.ReadExponentialGolomb
      (fun pps v => { pps with seq_parameter_set_id := v })
    -- entropy_coding_mode_flag  u(1)
    >>= readField (fun b => b.ReadBits 1)
      (fun pps v => { pps with entropy_coding_mode_flag := v })
    -- pic_order_present_flag  u(1)
    >>= readField (fun b => b.ReadBits 1)
      (fun pps v => { pps with pic_order_present_flag := v })
    -- num_slice_groups_minus1  ue(v)
    >>= readField BitBuffer.ReadExponentialGolomb
      (fun pps v => { pps with num_slice_groups_minus1 := v })
    -- if (pps->num_slice_groups_minus1 > 0) ...
    >>= (fun st => parseSliceGroups st.1 st.2)
    -- num_ref_idx_l0_active_minus1  ue(v)
    >>= readField BitBuffer.ReadExponentialGolomb
      (fun pps v => { pps with num_ref_idx_l0_active_minus1 := v })
    -- num_ref_idx_l1_active_minus1  ue(v)
    >>= readField BitBuffer.ReadExponentialGolomb
      (fun pps v => { pps with num_ref_idx_l1_active_minus1 := v })
    -- weighted_pred_flag  u(1)
    >>= readField (fun b => b.ReadBits 1)
      (fun pps v => { pps with weighted_pred_flag := v })
    -- weighted_bipred_idc  u(2)
    >>= readField (fun b => b.ReadBits 2)
      (fun pps v => { pps with weighted_bipred_idc := v })
    -- pic_init_qp_minus26  se(v)
    >>= readField BitBuffer.ReadSignedExponentialGolomb
      (fun pps v => { pps with pic_init_qp_minus26 := v })
    -- pic_init_qs_minus26  se(v)
    >>= readField BitBuffer.ReadSignedExponentialGolomb
      (fun pps v => { pps with pic_init_qs_minus26 := v })
    -- chroma_qp_index_offset  se(v)
    >>= readField BitBuffer.ReadSignedExponentialGolomb
      (fun pps v => { pps with chroma_qp_index_offset := v })
    -- deblocking_filter_control_present_flag  u(1)
    >>= readField (fun b => b.ReadBits 1)
      (fun pps v => { pps with deblocking_filter_control_present_flag := v })
    -- constrained_intra_pred_flag  u(1)
    >>= readField (fun b => b.ReadBits 1)
      (fun pps v => { pps with constrained_intra_pred_flag := v })
    -- redundant_pic_cnt_present_flag  u(1)
    >>= readField (fun b => b.ReadBits 1)
      (fun pps v => { pps with redundant_pic_cnt_present_flag := v })

/-- The function `ParsePps(rtc::BitBuffer*)`: the syntax fields, then the call
`rbsp_trailing_bits(bit_buffer)` of line 181, whose result is dropped, then `return pps`. -/
def ParsePps (bb : BitBuffer) : Option PpsState :=
  match ParsePpsFields bb with
  | none => none
  | some (pps, bb) =>
    match rbsp_trailing_bits bb with
    | (_, _) => some pps

/-- The function `ParsePps(const uint8_t*, size_t)`: unescape the payload and parse a bit buffer
over the result, positioned at its start. -/
def ParsePpsBytes (data : List Nat) : Option PpsState :=
  let unpacked_buffer := UnescapeRbsp data
  ParsePps { bytes := unpacked_buffer, pos := 0 }

/-! ## Reference readers used to state what the slice-group loops store -/

/-- The next `n` unsigned exp-Golomb values of the bitstream, in the order they appear, and the
bit buffer after them. -/
def readGolombs : Nat → BitBuffer → Option (List Nat × BitBuffer)
  | 0, bb => some ([], bb)
  | n + 1, bb =>
    match bb.ReadExponentialGolomb with
    | none => none
    | some (v, bb1) =>
      match readGolombs n bb1 with
      | none => none
      | some (vs, bb2) => some (v :: vs, bb2)

/-- The two sequences merged element by element: `a0, b0, a1, b1, ...`. -/
def interleave : List Nat → List Nat → List Nat
  | a :: as, b :: bs => a :: b :: interleave as bs
  | _, _ => []

/-! ## Predicates used to state that the parser reads only the bits it consumes -/

/-- The bit buffer over the byte sequence extended by `E`, at the same read position. -/
def BitBuffer.extend (bb : BitBuffer) (E : List Nat) : BitBuffer :=
  { bb with bytes := bb.bytes ++ E }

/-- A read that succeeds on a buffer stays inside it and succeeds in the same way, with the same
value and the same final position, when bytes are appended to the buffer. -/
def ReadLocal {α : Type} (read : BitBuffer → Option (α × BitBuffer)) : Prop :=
  ∀ (bb : BitBuffer) (E : List Nat) (v : α) (b1 : BitBuffer),
    bb.pos ≤ 8 * bb.bytes.length → read bb = some (v, b1) →
    b1.bytes = bb.bytes ∧ b1.pos ≤ 8 * bb.bytes.length ∧
      read (bb.extend E) = some (v, b1.extend E)

/-- The same property for a step of the parser, which also carries the PpsState. -/
def StageLocal (stage : PpsState × BitBuffer → Option (PpsState × BitBuffer)) : Prop :=
  ∀ (pps : PpsState) (bb : BitBuffer) (E : List Nat) (r : PpsState × BitBuffer),
    bb.pos ≤ 8 * bb.bytes.length → stage (pps, bb) = some r →
    r.2.bytes = bb.bytes ∧ r.2.pos ≤ 8 * bb.bytes.length ∧
      stage (pps, bb.extend E) = some (r.1, r.2.extend E)

/-- The outcome `y` on the extended buffer repeats every success of the outcome `x` on the buffer
`bytes`. -/
def OutcomeLocal (bytes E : List Nat) (x y : Option (PpsState × BitBuffer)) : Prop :=
  ∀ r : PpsState × BitBuffer, x = some r →
    r.2.bytes = bytes ∧ r.2.pos ≤ 8 * bytes.length ∧ y = some (r.1, r.2.extend E)

/-! ## Facts about UnescapeRbsp -/

theorem unescapeRef_triple (rest : List Nat) :
    unescapeRef (0 :: 0 :: 3 :: rest) = 0 :: 0 :: unescapeRef rest := by
  simp [unescapeRef]

theorem unescapeRef_cons (b : Nat) (rest : List Nat)
    (h : ∀ r, b :: rest ≠ 0 :: 0 :: 3 :: r) :
    unescapeRef (b :: rest) = b :: unescapeRef rest := by
  rw [unescapeRef.eq_def]
  split
  · rename_i r heq
    exact absurd heq (h r)
  · rename_i b2 rest2 _ heq
    cases heq
    rfl
  · rename_i heq
    cases heq

theorem drop_three (data : List Nat) (i : Nat) (h : i + 2 < data.length) :
    data.drop i = data.get ⟨i, by omega⟩ :: data.get ⟨i + 1, by omega⟩ ::
      data.get ⟨i + 2, h⟩ :: data.drop (i + 3) := by
  rw [List.drop_eq_getElem_cons (by omega : i < data.length),
    List.drop_eq_getElem_cons (by omega : i + 1 < data.length),
    List.drop_eq_getElem_cons (by omega : i + 1 + 1 < data.length)]
  rfl

/-- The loop appends to `out` the reference scan of the bytes from index `i` on, whenever the
iteration bound covers the bytes that are left. -/
theorem UnescapeRbspLoop_fst (data : List Nat) :
    ∀ (fuel i : Nat) (out : List Nat) (skipped : Nat), data.length - i ≤ fuel →
      (UnescapeRbspLoop data fuel i out skipped).1 = out ++ unescapeRef (data.drop i) := by
  intro fuel
  induction fuel with
  | zero =>
    intro i out skipped hf
    have : data.drop i = [] := List.drop_eq_nil_of_le (by omega)
    simp [UnescapeRbspLoop, this, unescapeRef]
  | succ fuel ih =>
    intro i out skipped hf
    rw [UnescapeRbspLoop]
    by_cases h : i < data.length
    · rw [dif_pos h]
      have hd1 : data.drop i = data.get ⟨i, h⟩ :: data.drop (i + 1) :=
        List.drop_eq_getElem_cons h
      by_cases h3 : data.length - i ≥ 3
      · rw [dif_pos h3]
        have hd := drop_three data i (by omega)
        by_cases hc : data.get ⟨i, h⟩ = 0x00 ∧ data.get ⟨i + 1, by omega⟩ = 0x00 ∧
            data.get ⟨i + 2, by omega⟩ = 0x03
        · rw [if_pos hc, ih _ _ _ (by omega), hd, hc.1, hc.2.1, hc.2.2, unescapeRef_triple]
          simp
        · have hd2 : data.drop (i + 1) = data.get ⟨i + 1, by omega⟩ ::
              data.get ⟨i + 2, by omega⟩ :: data.drop (i + 3) := by
            have := hd1.symm.trans hd
            simp only [List.cons.injEq, true_and] at this
            exact this
          rw [if_neg hc, ih _ _ _ (by omega), hd1, unescapeRef_cons]
          · simp
          · intro r hr
            rw [hd2] at hr
            simp only [List.cons.injEq] at hr
            exact hc ⟨hr.1, hr.2.1, hr.2.2.1⟩
      · rw [dif_neg h3, ih _ _ _ (by omega), hd1, unescapeRef_cons]
        · simp
        · intro r hr
          have := congrArg List.length hr
          simp only [List.length_cons, List.length_drop] at this
          omega
    · rw [dif_neg h]
      have : data.drop i = [] := List.drop_eq_nil_of_le (by omega)
      simp [this, unescapeRef]

/-- Every iteration emits one byte per input byte, except that a skipped emulation byte is
counted instead of emitted. -/
theorem UnescapeRbspLoop_length (data : List Nat) :
    ∀ (fuel i : Nat) (out : List Nat) (skipped : Nat), data.length - i ≤ fuel →
      i ≤ data.length →
      (UnescapeRbspLoop data fuel i out skipped).1.length +
        (UnescapeRbspLoop data fuel i out skipped).2 + i = out.length + skipped + data.length := by
  intro fuel
  induction fuel with
  | zero =>
    intro i out skipped hf hi
    simp only [UnescapeRbspLoop]
    omega
  | succ fuel ih =>
    intro i out skipped hf hi
    rw [UnescapeRbspLoop]
    by_cases h : i < data.length
    · rw [dif_pos h]
      by_cases h3 : data.length - i ≥ 3
      · rw [dif_pos h3]
        split
        · have := ih (i + 3) (out ++ [data.get ⟨i, h⟩, data.get ⟨i + 1, by omega⟩])
            (skipped + 1) (by omega) (by omega)
          simp only [List.length_append, List.length_cons, List.length_nil] at this
          omega
        · have := ih (i + 1) (out ++ [data.get ⟨i, h⟩]) skipped (by omega) (by omega)
          simp only [List.length_append, List.length_cons, List.length_nil] at this
          omega
      · rw [dif_neg h3]
        have := ih (i + 1) (out ++ [data.get ⟨i, h⟩]) skipped (by omega) (by omega)
        simp only [List.length_append, List.length_cons, List.length_nil] at this
        omega
    · rw [dif_neg h]
      simp only
      omega

theorem UnescapeRbsp_eq_unescapeRef (data : List Nat) : UnescapeRbsp data = unescapeRef data := by
  simp [UnescapeRbsp, UnescapeRbspLoop_fst data data.length 0 [] 0 (by omega)]

theorem escape_zz_three (r : List Nat) :
    escape (0 :: 0 :: 3 :: r) = 0 :: 0 :: escape (3 :: r) := by
  simp [escape]

theorem escape_zz_other (r : List Nat) (h : ∀ t, r ≠ 3 :: t) :
    escape (0 :: 0 :: r) = 0 :: 0 :: 3 :: escape r := by
  rw [escape]
  intro t ht
  exact h t ht

theorem escape_cons (b : Nat) (rest : List Nat) (h : ∀ r, b :: rest ≠ 0 :: 0 :: r) :
    escape (b :: rest) = b :: escape rest := by
  rw [escape.eq_def]
  split
  · rename_i r heq
    exact absurd heq (h r)
  · rename_i b2 rest2 _ heq
    cases heq
    rfl
  · rename_i heq
    cases heq

/-- Escaping keeps the first byte. -/
theorem escape_head (c : Nat) (r : List Nat) : ∃ t, escape (c :: r) = c :: t := by
  by_cases h : ∃ r2, c :: r = 0 :: 0 :: r2
  · obtain ⟨r2, h⟩ := h
    rw [h]
    simp only [List.cons.injEq] at h
    rw [← h.1]
    by_cases h3 : ∃ t, r2 = 3 :: t
    · obtain ⟨t, rfl⟩ := h3
      exact ⟨_, by rw [h.1]; exact escape_zz_three t⟩
    · exact ⟨_, by rw [h.1]; exact escape_zz_other r2 (fun t ht => h3 ⟨t, ht⟩)⟩
  · exact ⟨_, escape_cons c r (fun r2 h2 => h ⟨r2, h2⟩)⟩

theorem unescapeRef_escape : ∀ (S : List Nat), ¬ [0, 0, 3] <:+: S → unescapeRef (escape S) = S
  | [], _ => by simp [escape, unescapeRef]
  | b :: rest, hS => by
    have hrest : ¬ [0, 0, 3] <:+: rest := fun h => hS (List.infix_cons h)
    by_cases h : ∃ r2, b :: rest = 0 :: 0 :: r2
    · obtain ⟨r2, h⟩ := h
      simp only [List.cons.injEq] at h
      obtain ⟨hb, hr⟩ := h
      subst hb
      subst hr
      have h3 : ∀ t, r2 ≠ 3 :: t := by
        intro t ht
        apply hS
        rw [ht]
        exact (List.prefix_append [0, 0, 3] t).isInfix
      have hr2 : ¬ [0, 0, 3] <:+: r2 := fun h => hrest (List.infix_cons h)
      rw [escape_zz_other r2 h3, unescapeRef_triple, unescapeRef_escape r2 hr2]
    · have hne : ∀ r2, b :: rest ≠ 0 :: 0 :: r2 := fun r2 h2 => h ⟨r2, h2⟩
      rw [escape_cons b rest hne, unescapeRef_cons, unescapeRef_escape rest hrest]
      intro r hr
      simp only [List.cons.injEq] at hr
      obtain ⟨hb, hr⟩ := hr
      cases rest with
      | nil => simp [escape] at hr
      | cons c r3 =>
        obtain ⟨t, ht⟩ := escape_head c r3
        rw [ht] at hr
        simp only [List.cons.injEq] at hr
        exact hne r3 (by rw [hb, hr.1])

theorem unescapeRef_id : ∀ (S : List Nat), ¬ [0, 0, 3] <:+: S → unescapeRef S = S
  | [], _ => by simp [unescapeRef]
  | b :: rest, hS => by
    have hrest : ¬ [0, 0, 3] <:+: rest := fun h => hS (List.infix_cons h)
    rw [unescapeRef_cons, unescapeRef_id rest hrest]
    intro r hr
    apply hS
    rw [hr]
    exact (List.prefix_append [0, 0, 3] r).isInfix

/-! ## Facts about getSliceGroupIdLen -/

/-- The integer ceiling logarithm of the model is the ceiling of the real-valued base-2 logarithm
of the expression `1.0 * num_slice_groups_minus1 + 1` of the source. -/
theorem getSliceGroupIdLen_eq_ceil_logb (n : Nat) :
    ⌈Real.logb 2 (1.0 * (n : ℝ) + 1)⌉ = (getSliceGroupIdLen n : ℤ) := by
  have h := Real.ceil_logb_natCast (b := 2) (r := ((n + 1 : ℕ) : ℝ)) (by positivity)
  rw [Int.clog_natCast] at h
  rw [getSliceGroupIdLen, ← h]
  norm_num

theorem getSliceGroupIdLen_isLeast (n : Nat) :
    IsLeast {k : Nat | n + 1 ≤ 2 ^ k} (getSliceGroupIdLen n) := by
  constructor
  · exact Nat.le_pow_clog (by norm_num) _
  · intro k hk
    exact (Nat.le_pow_iff_clog_le (by norm_num)).1 hk

/-! ## The claims about UnescapeRbsp and getSliceGroupIdLen -/

/-- Claim C5 fails as stated: the sequence `0x00 0x00 0x03` has its only `0x00 0x00` pair already
followed by `0x03`, so escaping inserts nothing, and unescaping then drops the `0x03`. -/
theorem C5_roundtrip_fails :
    escape [0x00, 0x00, 0x03] = [0x00, 0x00, 0x03] ∧
      UnescapeRbsp (escape [0x00, 0x00, 0x03]) = [0x00, 0x00] ∧
      UnescapeRbsp (escape [0x00, 0x00, 0x03]) ≠ [0x00, 0x00, 0x03] := by
  decide

/-- Claim C5 (amended): for every byte sequence `S` that contains no three consecutive bytes
`0x00 0x00 0x03`, unescaping the escaped sequence gives `S` back. -/
theorem C5_escape_unescape_roundtrip (S : List Nat) (hS : ¬ [0x00, 0x00, 0x03] <:+: S) :
    UnescapeRbsp (escape S) = S := by
  rw [UnescapeRbsp_eq_unescapeRef]
  exact unescapeRef_escape S hS

theorem C5_escape_unescape_roundtrip_witness :
    ¬ [0x00, 0x00, 0x03] <:+: [0x00, 0x00, 0x00, 0x01, 0x00, 0x00] ∧
      escape [0x00, 0x00, 0x00, 0x01, 0x00, 0x00] =
        [0x00, 0x00, 0x03, 0x00, 0x01, 0x00, 0x00, 0x03] ∧
      UnescapeRbsp (escape [0x00, 0x00, 0x00, 0x01, 0x00, 0x00]) =
        [0x00, 0x00, 0x00, 0x01, 0x00, 0x00] :=
  ⟨by decide, by decide, C5_escape_unescape_roundtrip _ (by decide)⟩

/-- Claim C6: on a byte sequence that contains no three consecutive bytes `0x00 0x00 0x03`,
`UnescapeRbsp` returns a sequence equal to its input. -/
theorem C6_unescape_identity (S : List Nat) (hS : ¬ [0x00, 0x00, 0x03] <:+: S) :
    UnescapeRbsp S = S := by
  rw [UnescapeRbsp_eq_unescapeRef]
  exact unescapeRef_id S hS

theorem C6_unescape_identity_witness :
    ¬ [0x00, 0x00, 0x03] <:+: [0x00, 0x03, 0x00, 0x00, 0x02, 0x03] ∧
      UnescapeRbsp [0x00, 0x03, 0x00, 0x00, 0x02, 0x03] = [0x00, 0x03, 0x00, 0x00, 0x02, 0x03] :=
  ⟨by decide, C6_unescape_identity _ (by decide)⟩

/-- Claim C7: `UnescapeRbsp` is the reference left-to-right scan: it maps the empty input to the
empty output, an input `0x00 0x00 0x03 rest` to `0x00 0x00` followed by the unescaped `rest`, and
any other non-empty input `b rest` (inputs of fewer than three bytes included) to `b` followed by
the unescaped `rest`. -/
theorem C7_unescape_reference_scan :
    UnescapeRbsp [] = [] ∧
      (∀ rest : List Nat,
        UnescapeRbsp (0x00 :: 0x00 :: 0x03 :: rest) = 0x00 :: 0x00 :: UnescapeRbsp rest) ∧
      (∀ (b : Nat) (rest : List Nat), ¬ [0x00, 0x00, 0x03] <+: b :: rest →
        UnescapeRbsp (b :: rest) = b :: UnescapeRbsp rest) := by
  refine ⟨by decide, ?_, ?_⟩
  · intro rest
    simp only [UnescapeRbsp_eq_unescapeRef]
    exact unescapeRef_triple rest
  · intro b rest h
    simp only [UnescapeRbsp_eq_unescapeRef]
    apply unescapeRef_cons
    intro r hr
    apply h
    rw [hr]
    exact List.prefix_append [0, 0, 3] r

theorem C7_unescape_reference_scan_witness :
    ¬ [0x00, 0x00, 0x03] <+: [0x00, 0x00] ∧
      UnescapeRbsp [0x00, 0x00] = 0x00 :: UnescapeRbsp [0x00] ∧
      ¬ [0x00, 0x00, 0x03] <+: [0x05, 0x00, 0x00, 0x03] ∧
      UnescapeRbsp [0x05, 0x00, 0x00, 0x03] = 0x05 :: UnescapeRbsp [0x00, 0x00, 0x03] :=
  ⟨by decide, C7_unescape_reference_scan.2.2 _ _ (by decide), by decide,
    C7_unescape_reference_scan.2.2 _ _ (by decide)⟩

/-- Claim C8: the output of `UnescapeRbsp` is at most as long as the input; its length is the
input length minus the number of `0x03` emulation bytes the scan skipped. -/
theorem C8_unescape_length (data : List Nat) :
    (UnescapeRbsp data).length ≤ data.length ∧
      (UnescapeRbsp data).length = data.length - UnescapeRbspSkipped data ∧
      (UnescapeRbsp data).length + UnescapeRbspSkipped data = data.length := by
  have h := UnescapeRbspLoop_length data data.length 0 [] 0 (by omega) (by omega)
  simp only [List.length_nil] at h
  simp only [UnescapeRbsp, UnescapeRbspSkipped]
  omega

/-- Claim C9: for every 32-bit unsigned `num_slice_groups_minus1 = n`, `getSliceGroupIdLen` is
`ceil(log2(n + 1))`, which is the least natural number `k` with `2^k >= n + 1`. -/
theorem C9_getSliceGroupIdLen_ceil_log2 (n : Nat) (hn : n < 2 ^ 32) :
    ⌈Real.logb 2 (1.0 * (n : ℝ) + 1)⌉ = (getSliceGroupIdLen n : ℤ) ∧
      IsLeast {k : Nat | n + 1 ≤ 2 ^ k} (getSliceGroupIdLen n) ∧
      getSliceGroupIdLen n ≤ 32 := by
  refine ⟨getSliceGroupIdLen_eq_ceil_logb n, getSliceGroupIdLen_isLeast n, ?_⟩
  exact (getSliceGroupIdLen_isLeast n).2 (by show n + 1 ≤ 2 ^ 32; omega)

theorem C9_getSliceGroupIdLen_ceil_log2_witness :
    4294967295 < 2 ^ 32 ∧
      ⌈Real.logb 2 (1.0 * ((4294967295 : Nat) : ℝ) + 1)⌉ = (getSliceGroupIdLen 4294967295 : ℤ) ∧
      IsLeast {k : Nat | 4294967295 + 1 ≤ 2 ^ k} (getSliceGroupIdLen 4294967295) ∧
      getSliceGroupIdLen 4294967295 ≤ 32 :=
  ⟨by decide, C9_getSliceGroupIdLen_ceil_log2 4294967295 (by decide)⟩

/-- Claim C10: `getSliceGroupIdLen` maps the values 0, 1, 2, 3, 6, 7 of
`num_slice_groups_minus1` to 0, 1, 2, 2, 3, 3. -/
theorem C10_getSliceGroupIdLen_table :
    getSliceGroupIdLen 0 = 0 ∧ getSliceGroupIdLen 1 = 1 ∧ getSliceGroupIdLen 2 = 2 ∧
      getSliceGroupIdLen 3 = 2 ∧ getSliceGroupIdLen 6 = 3 ∧ getSliceGroupIdLen 7 = 3 := by
  simp [getSliceGroupIdLen, Nat.clog]

/-! ## Facts about the PPS parser -/

theorem readField_eq_some {α : Type} (read : BitBuffer → Option (α × BitBuffer))
    (store : PpsState → α → PpsState) (st st1 : PpsState × BitBuffer) :
    readField read store st = some st1 ↔
      ∃ v bb, read st.2 = some (v, bb) ∧ (store st.1 v, bb) = st1 := by
  unfold readField
  cases h : read st.2 with
  | none => simp
  | some p =>
    obtain ⟨v, bb⟩ := p
    simp only [Option.some.injEq]
    constructor
    · intro h1
      exact ⟨v, bb, rfl, h1⟩
    · rintro ⟨v1, bb1, h1, h2⟩
      cases h1
      exact h2

theorem readField_bind_eq_some {α : Type} (read : BitBuffer → Option (α × BitBuffer))
    (store : PpsState → α → PpsState) (st r : PpsState × BitBuffer)
    (k : PpsState × BitBuffer → Option (PpsState × BitBuffer)) :
    (readField read store st).bind k = some r ↔
      ∃ v bb, read st.2 = some (v, bb) ∧ k (store st.1 v, bb) = some r := by
  unfold readField
  cases h : read st.2 with
  | none => simp
  | some p =>
    obtain ⟨v, bb⟩ := p
    simp only [Option.some_bind]
    constructor
    · intro h1
      exact ⟨v, bb, rfl, h1⟩
    · rintro ⟨v1, bb1, h1, h2⟩
      cases h1
      exact h2

theorem ParsePps_eq_some (bb : BitBuffer) (pps : PpsState) :
    ParsePps bb = some pps ↔ ∃ bb1, ParsePpsFields bb = some (pps, bb1) := by
  unfold ParsePps
  cases h : ParsePpsFields bb with
  | none => simp
  | some p =>
    obtain ⟨q, b⟩ := p
    simp

theorem parseRunLengthLoop_num (n : Nat) :
    ∀ (pps : PpsState) (bb : BitBuffer) (r : PpsState × BitBuffer),
      parseRunLengthLoop n pps bb = some r →
      r.1.num_slice_groups_minus1 = pps.num_slice_groups_minus1 := by
  induction n with
  | zero =>
    intro pps bb r h
    simp only [parseRunLengthLoop, Option.some.injEq] at h
    rw [← h]
  | succ n ih =>
    intro pps bb r h
    rw [parseRunLengthLoop] at h
    cases hg : bb.ReadExponentialGolomb with
    | none => simp [hg] at h
    | some p =>
      obtain ⟨v, b1⟩ := p
      simp only [hg] at h
      exact (ih _ _ _ h).trans rfl

theorem parseRectangleLoop_num (n : Nat) :
    ∀ (pps : PpsState) (bb : BitBuffer) (r : PpsState × BitBuffer),
      parseRectangleLoop n pps bb = some r →
      r.1.num_slice_groups_minus1 = pps.num_slice_groups_minus1 := by
  induction n with
  | zero =>
    intro pps bb r h
    simp only [parseRectangleLoop, Option.some.injEq] at h
    rw [← h]
  | succ n ih =>
    intro pps bb r h
    rw [parseRectangleLoop] at h
    cases hg : bb.ReadExponentialGolomb with
    | none => simp [hg] at h
    | some p =>
      obtain ⟨v, b1⟩ := p
      simp only [hg] at h
      cases hg2 : b1.ReadExponentialGolomb with
      | none => simp [hg2] at h
      | some p2 =>
        obtain ⟨v2, b2⟩ := p2
        simp only [hg2] at h
        exact (ih _ _ _ h).trans rfl

theorem parseSliceGroups_num (pps : PpsState) (bb : BitBuffer) (r : PpsState × BitBuffer)
    (h : parseSliceGroups pps bb = some r) :
    r.1.num_slice_groups_minus1 = pps.num_slice_groups_minus1 := by
  unfold parseSliceGroups at h
  split at h
  · simp only [Option.bind_eq_bind, Option.bind_eq_some] at h
    obtain ⟨⟨v, b1⟩, hv, h⟩ := h
    dsimp only at h
    split_ifs at h
    · exact (parseRunLengthLoop_num _ _ _ _ h).trans rfl
    · exact (parseRectangleLoop_num _ _ _ _ h).trans rfl
    · simp only [Option.bind_eq_some, Option.some.injEq] at h
      obtain ⟨_, _, _, _, h⟩ := h
      rw [← h]
    · simp only [Option.bind_eq_some, Option.some.injEq] at h
      obtain ⟨_, _, _, _, h⟩ := h
      rw [← h]
    · simp only [Option.some.injEq] at h
      rw [← h]
  · simp only [Option.some.injEq] at h
    rw [← h]
/-- A successful run of the syntax-field reads, spelled out read by read. -/
theorem ParsePpsFields_inv (bb : BitBuffer) (pps : PpsState) (bbE : BitBuffer)
    (h : ParsePpsFields bb = some (pps, bbE)) :
    ∃ (v1 : Nat) (b1 : BitBuffer) (v2 : Nat) (b2 : BitBuffer) (v3 : Nat) (b3 : BitBuffer)
      (v4 : Nat) (b4 : BitBuffer) (v5 : Nat) (b5 : BitBuffer) (p6 : PpsState) (b6 : BitBuffer)
      (v7 : Nat) (b7 : BitBuffer) (v8 : Nat) (b8 : BitBuffer) (v9 : Nat) (b9 : BitBuffer)
      (v10 : Nat) (b10 : BitBuffer) (v11 : Int) (b11 : BitBuffer) (v12 : Int) (b12 : BitBuffer)
      (v13 : Int) (b13 : BitBuffer) (v14 : Nat) (b14 : BitBuffer) (v15 : Nat) (b15 : BitBuffer)
      (v16 : Nat),
      bb.ReadExponentialGolomb = some (v1, b1) ∧
      b1.ReadExponentialGolomb = some (v2, b2) ∧
      b2.ReadBits 1 = some (v3, b3) ∧
      b3.ReadBits 1 = some (v4, b4) ∧
      b4.ReadExponentialGolomb = some (v5, b5) ∧
      parseSliceGroups
        { pic_parameter_set_id := v1, seq_parameter_set_id := v2, entropy_coding_mode_flag := v3,
          pic_order_present_flag := v4, num_slice_groups_minus1 := v5 } b5 = some (p6, b6) ∧
      b6.ReadExponentialGolomb = some (v7, b7) ∧
      b7.ReadExponentialGolomb = some (v8, b8) ∧
      b8.ReadBits 1 = some (v9, b9) ∧
      b9.ReadBits 2 = some (v10, b10) ∧
      b10.ReadSignedExponentialGolomb = some (v11, b11) ∧
      b11.ReadSignedExponentialGolomb = some (v12, b12) ∧
      b12.ReadSignedExponentialGolomb = some (v13, b13) ∧
      b13.ReadBits 1 = some (v14, b14) ∧
      b14.ReadBits 1 = some (v15, b15) ∧
      b15.ReadBits 1 = some (v16, bbE) ∧
      pps = { p6 with
        num_ref_idx_l0_active_minus1 := v7, num_ref_idx_l1_active_minus1 := v8,
        weighted_pred_flag := v9, weighted_bipred_idc := v10, pic_init_qp_minus26 := v11,
        pic_init_qs_minus26 := v12, chroma_qp_index_offset := v13,
        deblocking_filter_control_present_flag := v14, constrained_intra_pred_flag := v15,
        redundant_pic_cnt_present_flag := v16 } := by
  simp only [ParsePpsFields, Option.bind_eq_bind, Option.bind_assoc, Option.some_bind,
    readField_bind_eq_some, readField_eq_some, Option.bind_eq_some] at h
  obtain ⟨s1, ⟨v1, b1, h1, e1⟩, s2, ⟨v2, b2, h2, e2⟩, s3, ⟨v3, b3, h3, e3⟩,
    s4, ⟨v4, b4, h4, e4⟩, s5, ⟨v5, b5, h5, e5⟩, ⟨p6, b6⟩, h6, h⟩ := h
  obtain ⟨s7, ⟨v7, b7, h7, e7⟩, s8, ⟨v8, b8, h8, e8⟩, s9, ⟨v9, b9, h9, e9⟩,
    s10, ⟨v10, b10, h10, e10⟩, s11, ⟨v11, b11, h11, e11⟩, s12, ⟨v12, b12, h12, e12⟩,
    s13, ⟨v13, b13, h13, e13⟩, s14, ⟨v14, b14, h14, e14⟩, s15, ⟨v15, b15, h15, e15⟩,
    v16, b16, h16, e16⟩ := h
  subst e1 e2 e3 e4 e5 e7 e8 e9 e10 e11 e12 e13 e14 e15
  simp only [Prod.mk.injEq] at e16
  obtain ⟨e16, rfl⟩ := e16
  exact ⟨v1, b1, v2, b2, v3, b3, v4, b4, v5, b5, p6, b6, v7, b7, v8, b8, v9, b9, v10, b10,
    v11, b11, v12, b12, v13, b13, v14, b14, v15, b15, v16,
    h1, h2, h3, h4, h5, h6, h7, h8, h9, h10, h11, h12, h13, h14, h15, h16, e16.symm⟩

/-! ## The claims about ParsePps -/

/-- Claim C1 fails as stated: on the bytes `0xE1 0x00` the third bit gives
`entropy_coding_mode_flag = 1`, the code `0001 000` gives `num_slice_groups_minus1 = 7`, and the
read of `slice_group_map_type` then runs off the end: both variants of `ParsePps` return no
result. -/
theorem C1_parse_E1_00_fails :
    ParsePps { bytes := [0xE1, 0x00], pos := 0 } = none ∧ ParsePpsBytes [0xE1, 0x00] = none := by
  decide

/-- Claim C1 (amended): `ParsePps`, in the bit-cursor variant and equally in the raw-bytes variant,
returns no result on the 2-byte RBSP `0xE1 0x00`; on the 3-byte RBSP `0xCE 0x38 0x80` (the fifteen
all-zero fields followed by correct trailing bits) it succeeds and yields a PpsState in which the
fifteen listed fields are all equal to 0. -/
theorem C1_parse_all_zero_pps :
    ParsePps { bytes := [0xE1, 0x00], pos := 0 } = none ∧
      ParsePpsBytes [0xE1, 0x00] = none ∧
      ParsePpsBytes [0xCE, 0x38, 0x80] = ParsePps { bytes := [0xCE, 0x38, 0x80], pos := 0 } ∧
      ∃ pps : PpsState, ParsePps { bytes := [0xCE, 0x38, 0x80], pos := 0 } = some pps ∧
        pps.pic_parameter_set_id = 0 ∧ pps.seq_parameter_set_id = 0 ∧
        pps.entropy_coding_mode_flag = 0 ∧ pps.pic_order_present_flag = 0 ∧
        pps.num_slice_groups_minus1 = 0 ∧ pps.num_ref_idx_l0_active_minus1 = 0 ∧
        pps.num_ref_idx_l1_active_minus1 = 0 ∧ pps.weighted_pred_flag = 0 ∧
        pps.weighted_bipred_idc = 0 ∧ pps.pic_init_qp_minus26 = 0 ∧
        pps.pic_init_qs_minus26 = 0 ∧ pps.chroma_qp_index_offset = 0 ∧
        pps.deblocking_filter_control_present_flag = 0 ∧
        pps.constrained_intra_pred_flag = 0 ∧ pps.redundant_pic_cnt_present_flag = 0 := by
  refine ⟨by decide, by decide, by decide, {}, by decide, ?_⟩
  decide

/-- Claim C3: when `ParsePps` succeeds with `num_slice_groups_minus1 = 0`, the sequences
`run_length_minus1`, `top_left`, `bottom_right` and `slice_group_id` of the result are empty,
`slice_group_map_type` is not read (it keeps its initial value), and the bits that follow
`num_slice_groups_minus1` are decoded as `num_ref_idx_l0_active_minus1`. -/
theorem C3_slice_group_absence (bb : BitBuffer) (pps : PpsState)
    (h : ParsePps bb = some pps) (h0 : pps.num_slice_groups_minus1 = 0) :
    pps.run_length_minus1 = [] ∧ pps.top_left = [] ∧ pps.bottom_right = [] ∧
      pps.slice_group_id = [] ∧ pps.slice_group_map_type = 0 ∧
      ∃ b1 b2 b3 b4 b5 b6 : BitBuffer,
        bb.ReadExponentialGolomb = some (pps.pic_parameter_set_id, b1) ∧
        b1.ReadExponentialGolomb = some (pps.seq_parameter_set_id, b2) ∧
        b2.ReadBits 1 = some (pps.entropy_coding_mode_flag, b3) ∧
        b3.ReadBits 1 = some (pps.pic_order_present_flag, b4) ∧
        b4.ReadExponentialGolomb = some (pps.num_slice_groups_minus1, b5) ∧
        b5.ReadExponentialGolomb = some (pps.num_ref_idx_l0_active_minus1, b6) := by
  obtain ⟨bbE, hf⟩ := (ParsePps_eq_some bb pps).1 h
  obtain ⟨v1, b1, v2, b2, v3, b3, v4, b4, v5, b5, p6, b6, v7, b7, v8, b8, v9, b9, v10, b10,
    v11, b11, v12, b12, v13, b13, v14, b14, v15, b15, v16,
    h1, h2, h3, h4, h5, h6, h7, -, -, -, -, -, -, -, -, -, e⟩ := ParsePpsFields_inv bb pps bbE hf
  have hn := parseSliceGroups_num _ _ _ h6
  have hv5 : v5 = 0 := by
    rw [e] at h0
    exact hn.symm.trans h0
  subst hv5
  simp only [parseSliceGroups, gt_iff_lt, lt_self_iff_false, if_false, Option.some.injEq,
    Prod.mk.injEq] at h6
  obtain ⟨hp, hb⟩ := h6
  subst hp hb e
  exact ⟨rfl, rfl, rfl, rfl, rfl, b1, b2, b3, b4, b5, b7, h1, h2, h3, h4, h5, h7⟩

theorem C3_slice_group_absence_witness :
    ParsePps { bytes := [0xCE, 0x38, 0x80], pos := 0 } = some {} ∧
      ({} : PpsState).num_slice_groups_minus1 = 0 ∧
      (({} : PpsState).run_length_minus1 = [] ∧ ({} : PpsState).top_left = [] ∧
        ({} : PpsState).bottom_right = [] ∧ ({} : PpsState).slice_group_id = [] ∧
        ({} : PpsState).slice_group_map_type = 0 ∧
        ∃ b1 b2 b3 b4 b5 b6 : BitBuffer,
          ({ bytes := [0xCE, 0x38, 0x80], pos := 0 } : BitBuffer).ReadExponentialGolomb =
            some (({} : PpsState).pic_parameter_set_id, b1) ∧
          b1.ReadExponentialGolomb = some (({} : PpsState).seq_parameter_set_id, b2) ∧
          b2.ReadBits 1 = some (({} : PpsState).entropy_coding_mode_flag, b3) ∧
          b3.ReadBits 1 = some (({} : PpsState).pic_order_present_flag, b4) ∧
          b4.ReadExponentialGolomb = some (({} : PpsState).num_slice_groups_minus1, b5) ∧
          b5.ReadExponentialGolomb = some (({} : PpsState).num_ref_idx_l0_active_minus1, b6)) :=
  ⟨by decide, rfl, C3_slice_group_absence _ _ (by decide) rfl⟩

/-- Claim C4: whenever all the syntax-field reads succeed, `ParsePps` returns the PpsState they
produced, whatever `rbsp_trailing_bits` returns on the bits that remain: the result is the same
for `true` and for `false`. -/
theorem C4_trailing_bits_leniency (bb : BitBuffer) (pps : PpsState) (bb1 : BitBuffer)
    (t : Bool) (hf : ParsePpsFields bb = some (pps, bb1))
    (ht : (rbsp_trailing_bits bb1).1 = t) : ParsePps bb = some pps :=
  (ParsePps_eq_some bb pps).2 ⟨bb1, hf⟩

theorem C4_trailing_bits_leniency_witness :
    -- well-formed trailing bits
    (ParsePpsFields { bytes := [0xCE, 0x38, 0x80], pos := 0 } =
        some ({}, { bytes := [0xCE, 0x38, 0x80], pos := 16 }) ∧
      (rbsp_trailing_bits { bytes := [0xCE, 0x38, 0x80], pos := 16 }).1 = true ∧
      ParsePps { bytes := [0xCE, 0x38, 0x80], pos := 0 } = some {}) ∧
    -- no bits left
    (ParsePpsFields { bytes := [0xCE, 0x38], pos := 0 } =
        some ({}, { bytes := [0xCE, 0x38], pos := 16 }) ∧
      (rbsp_trailing_bits { bytes := [0xCE, 0x38], pos := 16 }).1 = false ∧
      ParsePps { bytes := [0xCE, 0x38], pos := 0 } = some {}) ∧
    -- stop bit 0
    (ParsePpsFields { bytes := [0xCE, 0x38, 0x00], pos := 0 } =
        some ({}, { bytes := [0xCE, 0x38, 0x00], pos := 16 }) ∧
      (rbsp_trailing_bits { bytes := [0xCE, 0x38, 0x00], pos := 16 }).1 = false ∧
      ParsePps { bytes := [0xCE, 0x38, 0x00], pos := 0 } = some {}) ∧
    -- non-zero padding
    (ParsePpsFields { bytes := [0xCE, 0x38, 0xC0], pos := 0 } =
        some ({}, { bytes := [0xCE, 0x38, 0xC0], pos := 16 }) ∧
      (rbsp_trailing_bits { bytes := [0xCE, 0x38, 0xC0], pos := 16 }).1 = false ∧
      ParsePps { bytes := [0xCE, 0x38, 0xC0], pos := 0 } = some {}) := by
  have e1 : (rbsp_trailing_bits { bytes := [0xCE, 0x38, 0x80], pos := 16 }).1 = true := by
    simp [rbsp_trailing_bits, rbsp_trailing_bits_loop, BitBuffer.ReadBits,
      BitBuffer.RemainingBitCount, bitsValue, bitAt, byte_aligned, BitBuffer.GetCurrentOffset]
  have e2 : (rbsp_trailing_bits { bytes := [0xCE, 0x38], pos := 16 }).1 = false := by decide
  have e3 : (rbsp_trailing_bits { bytes := [0xCE, 0x38, 0x00], pos := 16 }).1 = false := by
    decide
  have e4 : (rbsp_trailing_bits { bytes := [0xCE, 0x38, 0xC0], pos := 16 }).1 = false := by
    simp [rbsp_trailing_bits, rbsp_trailing_bits_loop, BitBuffer.ReadBits,
      BitBuffer.RemainingBitCount, bitsValue, bitAt, byte_aligned, BitBuffer.GetCurrentOffset]
  exact ⟨⟨by decide, e1, C4_trailing_bits_leniency _ _ _ true (by decide) e1⟩,
    ⟨by decide, e2, C4_trailing_bits_leniency _ _ _ false (by decide) e2⟩,
    ⟨by decide, e3, C4_trailing_bits_leniency _ _ _ false (by decide) e3⟩,
    ⟨by decide, e4, C4_trailing_bits_leniency _ _ _ false (by decide) e4⟩⟩

/-! ## The parser reads only the bits it consumes -/

theorem bitAt_append (bytes E : List Nat) (p : Nat) (h : p < 8 * bytes.length) :
    bitAt (bytes ++ E) p = bitAt bytes p := by
  unfold bitAt
  rw [List.getD_append _ _ _ _ (by omega)]

theorem bitsValue_append (bytes E : List Nat) :
    ∀ (n p : Nat), p + n ≤ 8 * bytes.length →
      bitsValue (bytes ++ E) p n = bitsValue bytes p n := by
  intro n
  induction n with
  | zero => intro p _; rfl
  | succ n ih =>
    intro p h
    simp only [bitsValue]
    rw [bitAt_append bytes E p (by omega), ih (p + 1) (by omega)]

theorem leadingZeroBits_append (bytes E : List Nat) :
    ∀ (remaining p zeros : Nat), p + remaining ≤ 8 * bytes.length →
      leadingZeroBits bytes p remaining = some zeros →
      zeros < remaining ∧
        ∀ more, remaining ≤ more → leadingZeroBits (bytes ++ E) p more = some zeros := by
  intro remaining
  induction remaining with
  | zero =>
    intro p zeros _ h
    simp [leadingZeroBits] at h
  | succ remaining ih =>
    intro p zeros hp h
    rw [leadingZeroBits] at h
    by_cases hb : bitAt bytes p = 1
    · rw [if_pos hb] at h
      cases h
      refine ⟨by omega, ?_⟩
      intro more hm
      obtain ⟨m, rfl⟩ : ∃ m, more = m + 1 := ⟨more - 1, by omega⟩
      rw [leadingZeroBits, bitAt_append bytes E p (by omega), if_pos hb]
    · rw [if_neg hb] at h
      cases hz : leadingZeroBits bytes (p + 1) remaining with
      | none => simp [hz] at h
      | some z =>
        rw [hz] at h
        simp only [Option.map_some', Option.some.injEq] at h
        subst h
        obtain ⟨hlt, hext⟩ := ih (p + 1) z (by omega) hz
        refine ⟨by omega, ?_⟩
        intro more hm
        obtain ⟨m, rfl⟩ : ∃ m, more = m + 1 := ⟨more - 1, by omega⟩
        rw [leadingZeroBits, bitAt_append bytes E p (by omega), if_neg hb,
          hext m (by omega)]
        rfl

theorem ReadBits_local (n : Nat) : ReadLocal (fun b => b.ReadBits n) := by
  intro bb E v b1 hp h
  simp only [BitBuffer.ReadBits, BitBuffer.RemainingBitCount] at h
  split at h
  · rename_i hn
    simp only [Option.some.injEq, Prod.mk.injEq] at h
    obtain ⟨hv, hb⟩ := h
    subst hv hb
    refine ⟨rfl, by simp only; omega, ?_⟩
    simp only [BitBuffer.ReadBits, BitBuffer.RemainingBitCount, BitBuffer.extend,
      List.length_append]
    rw [if_pos (by omega), bitsValue_append bb.bytes E n bb.pos (by omega)]
  · cases h

theorem ReadExponentialGolomb_local : ReadLocal BitBuffer.ReadExponentialGolomb := by
  intro bb E v b1 hp h
  unfold BitBuffer.ReadExponentialGolomb at h
  cases hz : leadingZeroBits bb.bytes bb.pos bb.RemainingBitCount with
  | none => simp [hz] at h
  | some zeros =>
    simp only [hz] at h
    obtain ⟨hlt, hext⟩ := leadingZeroBits_append bb.bytes E bb.RemainingBitCount bb.pos zeros
      (by simp only [BitBuffer.RemainingBitCount]; omega) hz
    simp only [BitBuffer.RemainingBitCount] at hlt
    split at h
    · cases h
    · rename_i h32
      cases hr : ({ bb with pos := bb.pos + zeros + 1 } : BitBuffer).ReadBits zeros with
      | none => simp [hr] at h
      | some q =>
        obtain ⟨suffix, b2⟩ := q
        simp only [hr, Option.some.injEq, Prod.mk.injEq] at h
        obtain ⟨hv, hb⟩ := h
        subst hv hb
        obtain ⟨hbytes, hpos, hread⟩ := ReadBits_local zeros
          ({ bb with pos := bb.pos + zeros + 1 } : BitBuffer) E suffix b2
          (by simp only; omega) hr
        refine ⟨hbytes, hpos, ?_⟩
        unfold BitBuffer.ReadExponentialGolomb
        have hz2 : leadingZeroBits (bb.extend E).bytes (bb.extend E).pos
            (bb.extend E).RemainingBitCount = some zeros := by
          apply hext
          simp only [BitBuffer.RemainingBitCount, BitBuffer.extend, List.length_append]
          omega
        simp only [hz2, if_neg h32]
        have hread2 : ({ bb.extend E with pos := (bb.extend E).pos + zeros + 1 } :
            BitBuffer).ReadBits zeros = some (suffix, b2.extend E) := hread
        simp only [hread2]

theorem ReadSignedExponentialGolomb_local : ReadLocal BitBuffer.ReadSignedExponentialGolomb := by
  intro bb E v b1 hp h
  unfold BitBuffer.ReadSignedExponentialGolomb at h
  cases hg : bb.ReadExponentialGolomb with
  | none => simp [hg] at h
  | some q =>
    obtain ⟨k, b2⟩ := q
    simp only [hg, Option.some.injEq, Prod.mk.injEq] at h
    obtain ⟨hv, hb⟩ := h
    subst hv hb
    obtain ⟨hbytes, hpos, hread⟩ := ReadExponentialGolomb_local bb E k b2 hp hg
    refine ⟨hbytes, hpos, ?_⟩
    unfold BitBuffer.ReadSignedExponentialGolomb
    simp only [hread]

theorem readField_local {α : Type} (read : BitBuffer → Option (α × BitBuffer))
    (store : PpsState → α → PpsState) (hread : ReadLocal read) :
    StageLocal (readField read store) := by
  intro pps bb E r hp h
  obtain ⟨v, b1, hv, hr⟩ := (readField_eq_some read store (pps, bb) r).1 h
  subst hr
  obtain ⟨hbytes, hpos, hext⟩ := hread bb E v b1 hp hv
  refine ⟨hbytes, hpos, ?_⟩
  exact (readField_eq_some read store (pps, bb.extend E) _).2 ⟨v, b1.extend E, hext, rfl⟩

theorem parseRunLengthLoop_local (n : Nat) :
    StageLocal (fun st => parseRunLengthLoop n st.1 st.2) := by
  induction n with
  | zero =>
    intro pps bb E r hp h
    simp only [parseRunLengthLoop, Option.some.injEq] at h
    subst h
    exact ⟨rfl, hp, rfl⟩
  | succ n ih =>
    intro pps bb E r hp h
    simp only [parseRunLengthLoop] at h
    cases hg : bb.ReadExponentialGolomb with
    | none => simp [hg] at h
    | some q =>
      obtain ⟨v, b1⟩ := q
      simp only [hg] at h
      obtain ⟨hbytes, hpos, hext⟩ := ReadExponentialGolomb_local bb E v b1 hp hg
      obtain ⟨hb2, hp2, he2⟩ := ih _ b1 E r (by rw [hbytes]; exact hpos) h
      refine ⟨hb2.trans hbytes, by rw [← hbytes]; exact hp2, ?_⟩
      simp only [parseRunLengthLoop, hext]
      exact he2

theorem parseRectangleLoop_local (n : Nat) :
    StageLocal (fun st => parseRectangleLoop n st.1 st.2) := by
  induction n with
  | zero =>
    intro pps bb E r hp h
    simp only [parseRectangleLoop, Option.some.injEq] at h
    subst h
    exact ⟨rfl, hp, rfl⟩
  | succ n ih =>
    intro pps bb E r hp h
    simp only [parseRectangleLoop] at h
    cases hg : bb.ReadExponentialGolomb with
    | none => simp [hg] at h
    | some q =>
      obtain ⟨v, b1⟩ := q
      simp only [hg] at h
      obtain ⟨hbytes, hpos, hext⟩ := ReadExponentialGolomb_local bb E v b1 hp hg
      cases hg2 : b1.ReadExponentialGolomb with
      | none => simp [hg2] at h
      | some q2 =>
        obtain ⟨v2, b2⟩ := q2
        simp only [hg2] at h
        obtain ⟨hbytes2, hpos2, hext2⟩ := ReadExponentialGolomb_local b1 E v2 b2
          (by rw [hbytes]; exact hpos) hg2
        obtain ⟨hb3, hp3, he3⟩ := ih _ b2 E r (by rw [hbytes2]; exact hpos2) h
        refine ⟨hb3.trans (hbytes2.trans hbytes), ?_, ?_⟩
        · rw [← hbytes, ← hbytes2]; exact hp3
        · simp only [parseRectangleLoop, hext, hext2]
          exact he3

theorem outcomeLocal_bind (bytes E : List Nat) (x y : Option (PpsState × BitBuffer))
    (stage : PpsState × BitBuffer → Option (PpsState × BitBuffer))
    (hxy : OutcomeLocal bytes E x y) (hs : StageLocal stage) :
    OutcomeLocal bytes E (x >>= stage) (y >>= stage) := by
  intro r h
  simp only [Option.bind_eq_bind, Option.bind_eq_some] at h
  obtain ⟨a, ha, hr⟩ := h
  obtain ⟨hb, hp, hy⟩ := hxy a ha
  obtain ⟨pa, ba⟩ := a
  obtain ⟨hb2, hp2, he2⟩ := hs pa ba E r (by rw [hb]; exact hp) hr
  refine ⟨hb2.trans hb, by rw [← hb]; exact hp2, ?_⟩
  rw [hy]
  exact he2

theorem parseSliceGroups_local : StageLocal (fun st => parseSliceGroups st.1 st.2) := by
  intro pps bb E r hp h
  simp only [parseSliceGroups] at h ⊢
  by_cases hn : pps.num_slice_groups_minus1 > 0
  · simp only [if_pos hn, Option.bind_eq_bind, Option.bind_eq_some] at h ⊢
    obtain ⟨⟨v, b1⟩, hv, h⟩ := h
    obtain ⟨hbytes, hpos, hext⟩ := ReadExponentialGolomb_local bb E v b1 hp hv
    have hp1 : b1.pos ≤ 8 * b1.bytes.length := by rw [hbytes]; exact hpos
    suffices hs : r.2.bytes = b1.bytes ∧ r.2.pos ≤ 8 * b1.bytes.length ∧ _ from
      ⟨hs.1.trans hbytes, by rw [← hbytes]; exact hs.2.1, ⟨(v, b1.extend E), hext, hs.2.2⟩⟩
    dsimp only at h ⊢
    split_ifs at h ⊢
    · exact parseRunLengthLoop_local _ _ b1 E r hp1 h
    · exact parseRectangleLoop_local _ _ b1 E r hp1 h
    · simp only [Option.bind_eq_some, Option.some.injEq] at h ⊢
      obtain ⟨⟨v2, b2⟩, h2, ⟨v3, b3⟩, h3, hr⟩ := h
      subst hr
      obtain ⟨hb2, hq2, he2⟩ := ReadBits_local 1 b1 E v2 b2 hp1 h2
      obtain ⟨hb3, hq3, he3⟩ := ReadExponentialGolomb_local b2 E v3 b3
        (by rw [hb2]; exact hq2) h3
      exact ⟨hb3.trans hb2, by rw [← hb2]; exact hq3, (v2, b2.extend E), he2,
        (v3, b3.extend E), he3, rfl⟩
    · simp only [Option.bind_eq_some, Option.some.injEq] at h ⊢
      obtain ⟨⟨v2, b2⟩, h2, ⟨v3, b3⟩, h3, hr⟩ := h
      subst hr
      obtain ⟨hb2, hq2, he2⟩ := ReadExponentialGolomb_local b1 E v2 b2 hp1 h2
      obtain ⟨hb3, hq3, he3⟩ := ReadBits_local _ b2 E v3 b3 (by rw [hb2]; exact hq2) h3
      exact ⟨hb3.trans hb2, by rw [← hb2]; exact hq3, (v2, b2.extend E), he2,
        (v3, b3.extend E), he3, rfl⟩
    · simp only [Option.some.injEq] at h ⊢
      subst h
      exact ⟨rfl, hp1, rfl⟩
  · simp only [if_neg hn, Option.some.injEq] at h ⊢
    subst h
    exact ⟨rfl, hp, rfl⟩

/-- Every success of the syntax-field reads on a buffer is repeated, with the same PpsState and
the same final position, on the buffer extended by further bytes; the final position lies inside
the shorter buffer. -/
theorem ParsePpsFields_local (bytes E : List Nat) :
    OutcomeLocal bytes E (ParsePpsFields { bytes := bytes, pos := 0 })
      (ParsePpsFields { bytes := bytes ++ E, pos := 0 }) := by
  unfold ParsePpsFields
  have hbase : OutcomeLocal bytes E (some (({} : PpsState), { bytes := bytes, pos := 0 }))
      (some (({} : PpsState), { bytes := bytes ++ E, pos := 0 })) := by
    intro r hr
    simp only [Option.some.injEq] at hr
    subst hr
    exact ⟨rfl, Nat.zero_le _, rfl⟩
  have hG := ReadExponentialGolomb_local
  have hS := ReadSignedExponentialGolomb_local
  have hB := ReadBits_local
  repeat first
    | exact hbase
    | apply outcomeLocal_bind _ _ _ _ _ _ (readField_local _ _ hG)
    | apply outcomeLocal_bind _ _ _ _ _ _ (readField_local _ _ hS)
    | apply outcomeLocal_bind _ _ _ _ _ _ (readField_local _ _ (hB _))
    | apply outcomeLocal_bind _ _ _ _ _ _ parseSliceGroups_local

/-- Claim C2: if the syntax-field reads of `ParsePps` succeed on the byte sequence `B` and leave
the cursor at bit position `k`, then on every prefix of `B` with fewer than `k` bits `ParsePps`
returns no result: the field reads themselves return none, so no partially populated state is
returned. -/
theorem C2_exhaustion_failure (B : List Nat) (pps : PpsState) (bbE : BitBuffer)
    (hB : ParsePpsFields { bytes := B, pos := 0 } = some (pps, bbE))
    (P : List Nat) (hP : P <+: B) (hk : 8 * P.length < bbE.pos) :
    ParsePpsFields { bytes := P, pos := 0 } = none ∧ ParsePps { bytes := P, pos := 0 } = none := by
  have hnone : ParsePpsFields { bytes := P, pos := 0 } = none := by
    obtain ⟨E, rfl⟩ := hP
    cases hq : ParsePpsFields { bytes := P, pos := 0 } with
    | none => rfl
    | some r =>
      exfalso
      obtain ⟨_, hpos, hext⟩ := ParsePpsFields_local P E r hq
      rw [hB] at hext
      simp only [Option.some.injEq, Prod.mk.injEq] at hext
      rw [hext.2] at hk
      simp only [BitBuffer.extend] at hk
      omega
  refine ⟨hnone, ?_⟩
  cases hq : ParsePps { bytes := P, pos := 0 } with
  | none => rfl
  | some q =>
    obtain ⟨b, hb⟩ := (ParsePps_eq_some _ _).1 hq
    rw [hnone] at hb
    cases hb

theorem C2_exhaustion_failure_witness :
    ParsePpsFields { bytes := [0x5A, 0xE3, 0x88], pos := 0 } =
        some ({ pic_parameter_set_id := 1, entropy_coding_mode_flag := 1,
                num_ref_idx_l0_active_minus1 := 2 },
              { bytes := [0x5A, 0xE3, 0x88], pos := 20 }) ∧
      [0x5A, 0xE3] <+: [0x5A, 0xE3, 0x88] ∧
      8 * [0x5A, 0xE3].length < 20 ∧
      ParsePpsFields { bytes := [0x5A, 0xE3], pos := 0 } = none ∧
      ParsePps { bytes := [0x5A, 0xE3], pos := 0 } = none :=
  ⟨by decide, by decide, by decide,
    C2_exhaustion_failure [0x5A, 0xE3, 0x88] _ _
      (by decide : ParsePpsFields { bytes := [0x5A, 0xE3, 0x88], pos := 0 } =
        some ({ pic_parameter_set_id := 1, entropy_coding_mode_flag := 1,
                num_ref_idx_l0_active_minus1 := 2 },
              { bytes := [0x5A, 0xE3, 0x88], pos := 20 }))
      [0x5A, 0xE3] (by decide) (by decide)⟩

/-! ## Further facts about the reads -/

theorem bitAt_le_one (bytes : List Nat) (p : Nat) : bitAt bytes p ≤ 1 := by
  unfold bitAt
  omega

theorem bitsValue_lt (bytes : List Nat) : ∀ (n p : Nat), bitsValue bytes p n < 2 ^ n := by
  intro n
  induction n with
  | zero => intro p; simp [bitsValue]
  | succ n ih =>
    intro p
    simp only [bitsValue]
    have h1 := bitAt_le_one bytes p
    have h2 := ih (p + 1)
    have h3 : bitAt bytes p * 2 ^ n ≤ 1 * 2 ^ n := Nat.mul_le_mul_right _ h1
    rw [pow_succ]
    omega

/-- A successful `ReadBits` gives the value of the bits at the cursor, which is below `2^n`, and
moves the cursor by `n` bits. -/
theorem ReadBits_eq_some (bb : BitBuffer) (n v : Nat) (b1 : BitBuffer)
    (h : bb.ReadBits n = some (v, b1)) :
    n ≤ bb.RemainingBitCount ∧ v = bitsValue bb.bytes bb.pos n ∧ v < 2 ^ n ∧
      b1 = { bytes := bb.bytes, pos := bb.pos + n } := by
  simp only [BitBuffer.ReadBits] at h
  split at h
  · rename_i hn
    simp only [Option.some.injEq, Prod.mk.injEq] at h
    exact ⟨hn, h.1.symm, h.1 ▸ bitsValue_lt _ _ _, h.2.symm⟩
  · cases h

theorem leadingZeroBits_lt (bytes : List Nat) :
    ∀ (remaining p zeros : Nat), leadingZeroBits bytes p remaining = some zeros →
      zeros < remaining ∧ bitAt bytes (p + zeros) = 1 ∧ ∀ j, j < zeros → bitAt bytes (p + j) = 0 := by
  intro remaining
  induction remaining with
  | zero =>
    intro p zeros h
    simp [leadingZeroBits] at h
  | succ remaining ih =>
    intro p zeros h
    rw [leadingZeroBits] at h
    by_cases hb : bitAt bytes p = 1
    · rw [if_pos hb] at h
      cases h
      exact ⟨by omega, hb, fun j hj => absurd hj (by omega)⟩
    · rw [if_neg hb] at h
      cases hz : leadingZeroBits bytes (p + 1) remaining with
      | none => simp [hz] at h
      | some z =>
        rw [hz] at h
        simp only [Option.map_some', Option.some.injEq] at h
        subst h
        obtain ⟨h1, h2, h3⟩ := ih (p + 1) z hz
        refine ⟨by omega, by rw [← h2]; congr 1; omega, ?_⟩
        intro j hj
        cases j with
        | zero =>
          have := bitAt_le_one bytes p
          simp only [Nat.add_zero]
          omega
        | succ j =>
          rw [← h3 j (by omega)]
          congr 1
          omega

/-- A successful `ReadExponentialGolomb` has at most 31 leading zero bits, consumes
`2 * zeros + 1 >= 1` bits inside the buffer, and gives a value of at most `2^32 - 2`. -/
theorem ReadExponentialGolomb_eq_some (bb : BitBuffer) (v : Nat) (b1 : BitBuffer)
    (h : bb.ReadExponentialGolomb = some (v, b1)) :
    ∃ zeros suffix, zeros ≤ 31 ∧
      leadingZeroBits bb.bytes bb.pos bb.RemainingBitCount = some zeros ∧
      suffix = bitsValue bb.bytes (bb.pos + zeros + 1) zeros ∧
      v = 2 ^ zeros - 1 + suffix ∧ v ≤ 2 ^ 32 - 2 ∧
      b1 = { bytes := bb.bytes, pos := bb.pos + zeros + 1 + zeros } ∧
      bb.pos + zeros + 1 + zeros ≤ 8 * bb.bytes.length := by
  unfold BitBuffer.ReadExponentialGolomb at h
  cases hz : leadingZeroBits bb.bytes bb.pos bb.RemainingBitCount with
  | none => simp [hz] at h
  | some zeros =>
    simp only [hz] at h
    split at h
    · cases h
    · rename_i h32
      cases hr : ({ bb with pos := bb.pos + zeros + 1 } : BitBuffer).ReadBits zeros with
      | none => simp [hr] at h
      | some q =>
        obtain ⟨suffix, b2⟩ := q
        simp only [hr, Option.some.injEq, Prod.mk.injEq] at h
        obtain ⟨hv, hb⟩ := h
        subst hv hb
        obtain ⟨hrem, hs, hlt, hb2⟩ := ReadBits_eq_some _ _ _ _ hr
        simp only [BitBuffer.RemainingBitCount] at hrem
        have hz31 : zeros ≤ 31 := by omega
        have hpow : 2 ^ zeros ≤ 2 ^ 31 := Nat.pow_le_pow_right (by norm_num) hz31
        have hzlt := (leadingZeroBits_lt bb.bytes bb.RemainingBitCount bb.pos zeros hz).1
        simp only [BitBuffer.RemainingBitCount] at hzlt
        refine ⟨zeros, suffix, hz31, rfl, hs, rfl, ?_, hb2, ?_⟩
        · have : (2 : Nat) ^ 32 = 2 ^ 31 + 2 ^ 31 := by norm_num
          omega
        · omega

/-! ## Claims C11, C17 and C19 -/

/-- Claim C11 fails as stated at 8: nine slice groups need four bits, and
`ceil(log2(8 + 1))` is 4, not 3. -/
theorem C11_value_at_8_is_not_3 : getSliceGroupIdLen 8 = 4 ∧ getSliceGroupIdLen 8 ≠ 3 := by
  simp [getSliceGroupIdLen, Nat.clog]

/-- Claim C11 (amended): `getSliceGroupIdLen` maps `num_slice_groups_minus1` = 0 to 0, 1 to 1,
3 to 2, 7 to 3 and 8 to 4. -/
theorem C11_getSliceGroupIdLen_small_values :
    getSliceGroupIdLen 0 = 0 ∧ getSliceGroupIdLen 1 = 1 ∧ getSliceGroupIdLen 3 = 2 ∧
      getSliceGroupIdLen 7 = 3 ∧ getSliceGroupIdLen 8 = 4 := by
  simp [getSliceGroupIdLen, Nat.clog]

theorem getSliceGroupIdLen_bounds (n : Nat) (h0 : 0 < n) (h32 : n < 2 ^ 32) :
    1 ≤ getSliceGroupIdLen n ∧ getSliceGroupIdLen n ≤ 32 := by
  constructor
  · exact Nat.clog_pos (by norm_num) (by omega)
  · exact (getSliceGroupIdLen_isLeast n).2 (by show n + 1 ≤ 2 ^ 32; omega)

/-- The field `num_slice_groups_minus1` of a parsed PpsState is a value read by
`ReadExponentialGolomb`, so it is at most `2^32 - 2`. -/
theorem ParsePps_num_slice_groups_le (bb : BitBuffer) (pps : PpsState)
    (h : ParsePps bb = some pps) : pps.num_slice_groups_minus1 ≤ 2 ^ 32 - 2 := by
  obtain ⟨bbE, hf⟩ := (ParsePps_eq_some bb pps).1 h
  obtain ⟨v1, b1, v2, b2, v3, b3, v4, b4, v5, b5, p6, b6, v7, b7, v8, b8, v9, b9, v10, b10,
    v11, b11, v12, b12, v13, b13, v14, b14, v15, b15, v16,
    -, -, -, -, h5, h6, -, -, -, -, -, -, -, -, -, -, e⟩ := ParsePpsFields_inv bb pps bbE hf
  have hn := parseSliceGroups_num _ _ _ h6
  obtain ⟨_, _, _, _, _, _, hle, _, _⟩ := ReadExponentialGolomb_eq_some _ _ _ h5
  rw [e]
  exact (hn.trans rfl).le.trans hle

/-- Claim C19: for every 32-bit unsigned `num_slice_groups_minus1 > 0`, `getSliceGroupIdLen`
is between 1 and 32; in particular this holds for the field of every PpsState that `ParsePps`
returns with `num_slice_groups_minus1 > 0`, so the width of the `slice_group_id` read is never 0
and never more than 32. -/
theorem C19_getSliceGroupIdLen_range (n : Nat) (h0 : 0 < n) (h32 : n < 2 ^ 32) :
    (1 ≤ getSliceGroupIdLen n ∧ getSliceGroupIdLen n ≤ 32) ∧
      ∀ (bb : BitBuffer) (pps : PpsState), ParsePps bb = some pps →
        0 < pps.num_slice_groups_minus1 →
        1 ≤ getSliceGroupIdLen pps.num_slice_groups_minus1 ∧
          getSliceGroupIdLen pps.num_slice_groups_minus1 ≤ 32 := by
  refine ⟨getSliceGroupIdLen_bounds n h0 h32, ?_⟩
  intro bb pps h hpos
  have hle := ParsePps_num_slice_groups_le bb pps h
  exact getSliceGroupIdLen_bounds _ hpos (by
    have : (2 : Nat) ^ 32 - 2 < 2 ^ 32 := by norm_num
    omega)

theorem C19_getSliceGroupIdLen_range_witness :
    0 < 4294967295 ∧ 4294967295 < 2 ^ 32 ∧
      ((1 ≤ getSliceGroupIdLen 4294967295 ∧ getSliceGroupIdLen 4294967295 ≤ 32) ∧
        ∀ (bb : BitBuffer) (pps : PpsState), ParsePps bb = some pps →
          0 < pps.num_slice_groups_minus1 →
          1 ≤ getSliceGroupIdLen pps.num_slice_groups_minus1 ∧
            getSliceGroupIdLen pps.num_slice_groups_minus1 ≤ 32) :=
  ⟨by decide, by decide, C19_getSliceGroupIdLen_range 4294967295 (by decide) (by decide)⟩

theorem unescapeRef_prefix_append :
    ∀ (A B : List Nat), unescapeRef A <+: unescapeRef (A ++ B)
  | [], B => by simp [unescapeRef]
  | [b], B => by
    rw [unescapeRef_cons b [] (by intro r hr; cases hr)]
    by_cases h : ∃ r, b :: B = 0 :: 0 :: 3 :: r
    · obtain ⟨r, hr⟩ := h
      show [b] ++ unescapeRef [] <+: unescapeRef ([b] ++ B)
      simp only [List.singleton_append, hr, unescapeRef_triple]
      simp only [List.cons.injEq] at hr
      rw [hr.1]
      simp [unescapeRef]
    · show b :: unescapeRef [] <+: unescapeRef (b :: B)
      rw [unescapeRef_cons b B (fun r hr => h ⟨r, hr⟩)]
      simp [unescapeRef]
  | [b, c], B => by
    rw [unescapeRef_cons b [c] (by intro r hr; cases hr),
      unescapeRef_cons c [] (by intro r hr; cases hr)]
    by_cases h : ∃ r, b :: c :: B = 0 :: 0 :: 3 :: r
    · obtain ⟨r, hr⟩ := h
      show b :: c :: unescapeRef [] <+: unescapeRef (b :: c :: B)
      rw [hr, unescapeRef_triple]
      simp only [List.cons.injEq] at hr
      rw [hr.1, hr.2.1]
      simp [unescapeRef]
    · show b :: c :: unescapeRef [] <+: unescapeRef (b :: c :: B)
      rw [unescapeRef_cons b (c :: B) (fun r hr => h ⟨r, hr⟩)]
      have ih := unescapeRef_prefix_append [c] B
      rw [unescapeRef_cons c [] (by intro r hr; cases hr)] at ih
      exact (List.prefix_cons_inj b).2 ih
  | b :: c :: d :: rest, B => by
    by_cases h : b = 0 ∧ c = 0 ∧ d = 3
    · obtain ⟨rfl, rfl, rfl⟩ := h
      show unescapeRef (0 :: 0 :: 3 :: rest) <+: unescapeRef (0 :: 0 :: 3 :: (rest ++ B))
      rw [unescapeRef_triple, unescapeRef_triple]
      exact (List.prefix_cons_inj 0).2 ((List.prefix_cons_inj 0).2
        (unescapeRef_prefix_append rest B))
    · have hne : ∀ (t : List Nat) r, b :: c :: d :: t ≠ 0 :: 0 :: 3 :: r := by
        intro t r hr
        simp only [List.cons.injEq] at hr
        exact h ⟨hr.1, hr.2.1, hr.2.2.1⟩
      show unescapeRef (b :: c :: d :: rest) <+: unescapeRef (b :: c :: d :: (rest ++ B))
      rw [unescapeRef_cons b _ (hne rest), unescapeRef_cons b _ (hne (rest ++ B))]
      exact (List.prefix_cons_inj b).2 (unescapeRef_prefix_append (c :: d :: rest) B)

/-- Claim C17: `UnescapeRbsp` is prefix-monotone: the unescaped `A` is a prefix of the unescaped
`A ++ B`. -/
theorem C17_unescape_prefix_monotone (A B : List Nat) :
    UnescapeRbsp A <+: UnescapeRbsp (A ++ B) := by
  rw [UnescapeRbsp_eq_unescapeRef, UnescapeRbsp_eq_unescapeRef]
  exact unescapeRef_prefix_append A B

/-! ## more_rbsp_data -/

theorem bitAt_eq_zero_of_ne_one (bytes : List Nat) (p : Nat) (h : bitAt bytes p ≠ 1) :
    bitAt bytes p = 0 := by
  have := bitAt_le_one bytes p
  omega

theorem lastSetBit_eq_some (bytes : List Nat) :
    ∀ (n q : Nat), lastSetBit bytes n = some q ↔
      q < n ∧ bitAt bytes q = 1 ∧ ∀ r, q < r → r < n → bitAt bytes r = 0 := by
  intro n
  induction n with
  | zero =>
    intro q
    simp [lastSetBit]
  | succ n ih =>
    intro q
    rw [lastSetBit]
    by_cases hb : bitAt bytes n = 1
    · rw [if_pos hb]
      constructor
      · intro h
        simp only [Option.some.injEq] at h
        subst h
        exact ⟨by omega, hb, fun r h1 h2 => absurd h1 (by omega)⟩
      · rintro ⟨h1, h2, h3⟩
        by_cases hq : q = n
        · rw [hq]
        · have := h3 n (by omega) (by omega)
          omega
    · rw [if_neg hb, ih q]
      constructor
      · rintro ⟨h1, h2, h3⟩
        refine ⟨by omega, h2, ?_⟩
        intro r hr1 hr2
        by_cases hrn : r = n
        · rw [hrn]
          exact bitAt_eq_zero_of_ne_one _ _ hb
        · exact h3 r hr1 (by omega)
      · rintro ⟨h1, h2, h3⟩
        have hqn : q ≠ n := fun e => hb (e ▸ h2)
        exact ⟨by omega, h2, fun r hr1 hr2 => h3 r hr1 (by omega)⟩

theorem lastSetBit_eq_none (bytes : List Nat) :
    ∀ (n : Nat), lastSetBit bytes n = none ↔ ∀ q, q < n → bitAt bytes q = 0 := by
  intro n
  induction n with
  | zero => simp [lastSetBit]
  | succ n ih =>
    rw [lastSetBit]
    by_cases hb : bitAt bytes n = 1
    · rw [if_pos hb]
      simp only [reduceCtorEq, false_iff, not_forall]
      exact ⟨n, by omega, by omega⟩
    · rw [if_neg hb, ih]
      constructor
      · intro h q hq
        by_cases hqn : q = n
        · rw [hqn]
          exact bitAt_eq_zero_of_ne_one _ _ hb
        · exact h q (by omega)
      · intro h q hq
        exact h q (by omega)

/-- The byte-then-bit comparison of `more_rbsp_data` is the comparison of the bit positions. -/
theorem offset_lex_iff (q p : Nat) :
    (q / 8 > p / 8 ∨ (q / 8 = p / 8 ∧ q % 8 > p % 8)) ↔ p < q := by
  omega

/-- Claim C14: `more_rbsp_data` returns true if and only if at least one bit remains, the buffer
contains a set bit, and the (byte, bit) position of the last set bit of the whole buffer is
strictly after the (byte, bit) offset of the cursor, byte first and then bit; it returns false
when no bits remain and when the buffer is all zeros. -/
theorem C14_more_rbsp_data (bb : BitBuffer) :
    (more_rbsp_data bb = true ↔
      0 < bb.RemainingBitCount ∧
        ∃ q, q < 8 * bb.bytes.length ∧ bitAt bb.bytes q = 1 ∧
          (∀ r, q < r → r < 8 * bb.bytes.length → bitAt bb.bytes r = 0) ∧
          (q / 8 > bb.GetCurrentOffset.1 ∨
            (q / 8 = bb.GetCurrentOffset.1 ∧ q % 8 > bb.GetCurrentOffset.2))) ∧
      (bb.RemainingBitCount = 0 → more_rbsp_data bb = false) ∧
      ((∀ q, q < 8 * bb.bytes.length → bitAt bb.bytes q = 0) → more_rbsp_data bb = false) := by
  refine ⟨?_, ?_, ?_⟩
  · unfold more_rbsp_data
    by_cases hrem : bb.RemainingBitCount = 0
    · simp only [hrem, if_true, lt_self_iff_false, false_and]
      simp
    · simp only [if_neg hrem, BitBuffer.GetLastBitOffset]
      cases hl : lastSetBit bb.bytes (8 * bb.bytes.length) with
      | none =>
        simp only [Option.map_none', Bool.false_eq_true, false_iff, not_and, not_exists]
        intro _ q hq hq1
        have := (lastSetBit_eq_none bb.bytes _).1 hl q hq
        omega
      | some q0 =>
        obtain ⟨h1, h2, h3⟩ := (lastSetBit_eq_some bb.bytes _ q0).1 hl
        simp only [Option.map_some', BitBuffer.GetCurrentOffset]
        constructor
        · intro h
          refine ⟨by omega, q0, h1, h2, h3, ?_⟩
          by_contra hc
          rw [if_neg hc] at h
          cases h
        · rintro ⟨_, q, hq1, hq2, hq3, hq4⟩
          have hqq : q = q0 := by
            rcases Nat.lt_trichotomy q q0 with hlt | heq | hgt
            · have := hq3 q0 hlt h1
              omega
            · exact heq
            · have := h3 q hgt hq1
              omega
          subst hqq
          rw [if_pos hq4]
  · intro hrem
    simp [more_rbsp_data, hrem]
  · intro hz
    unfold more_rbsp_data
    split
    · rfl
    · have hl := (lastSetBit_eq_none bb.bytes (8 * bb.bytes.length)).2 hz
      simp [BitBuffer.GetLastBitOffset, hl]

/-! ## rbsp_trailing_bits -/

theorem rbsp_trailing_bits_loop_aligned (bb : BitBuffer) (h : byte_aligned bb = true) :
    rbsp_trailing_bits_loop bb = (true, bb) := by
  rw [rbsp_trailing_bits_loop]
  simp [h]

theorem rbsp_trailing_bits_loop_read (bb : BitBuffer) (v : Nat) (b1 : BitBuffer)
    (h : byte_aligned bb = false) (hr : bb.ReadBits 1 = some (v, b1)) :
    rbsp_trailing_bits_loop bb = if v ≠ 0 then (false, b1) else rbsp_trailing_bits_loop b1 := by
  rw [rbsp_trailing_bits_loop]
  simp only [h, dite_true]
  split
  · rename_i h2
    rw [hr] at h2
    cases h2
  · rename_i v2 b2 h2
    rw [hr] at h2
    simp only [Option.some.injEq, Prod.mk.injEq] at h2
    rw [h2.1, h2.2]

theorem rbsp_trailing_bits_loop_trace_aligned (bb : BitBuffer) (h : byte_aligned bb = true) :
    rbsp_trailing_bits_loop_trace bb = ((true, bb), 0, false) := by
  rw [rbsp_trailing_bits_loop_trace]
  simp [h]

theorem rbsp_trailing_bits_loop_trace_read (bb : BitBuffer) (v : Nat) (b1 : BitBuffer)
    (h : byte_aligned bb = false) (hr : bb.ReadBits 1 = some (v, b1)) :
    rbsp_trailing_bits_loop_trace bb =
      if v ≠ 0 then ((false, b1), 1, false)
      else ((rbsp_trailing_bits_loop_trace b1).1, (rbsp_trailing_bits_loop_trace b1).2.1 + 1,
        (rbsp_trailing_bits_loop_trace b1).2.2) := by
  rw [rbsp_trailing_bits_loop_trace]
  simp only [h, dite_true]
  split
  · rename_i h2
    rw [hr] at h2
    cases h2
  · rename_i v2 b2 h2
    rw [hr] at h2
    simp only [Option.some.injEq, Prod.mk.injEq] at h2
    rw [h2.1, h2.2]

/-- Inside a buffer of whole bytes a cursor that is not byte-aligned has a bit left: the read of
one bit succeeds and gives the bit at the cursor. -/
theorem ReadBits_one_of_not_aligned (bb : BitBuffer) (hv : bb.pos ≤ 8 * bb.bytes.length)
    (h : byte_aligned bb = false) :
    bb.pos < 8 * bb.bytes.length ∧
      bb.ReadBits 1 = some (bitAt bb.bytes bb.pos, { bytes := bb.bytes, pos := bb.pos + 1 }) := by
  simp only [byte_aligned, BitBuffer.GetCurrentOffset, beq_eq_false_iff_ne, ne_eq] at h
  have hlt : bb.pos < 8 * bb.bytes.length := by omega
  refine ⟨hlt, ?_⟩
  simp only [BitBuffer.ReadBits, BitBuffer.RemainingBitCount]
  rw [if_pos (by omega)]
  simp [bitsValue]

/-- The alignment loop, started inside a buffer of whole bytes with `n` bits to go to the next
byte boundary: it returns true exactly when these `n` bits are all 0, and then it leaves the cursor
on the boundary.  The ghost values of the traced loop: it returns what the loop returns, it never
leaves through the failed-read branch, and it runs one iteration per bit consumed, at most `n`. -/
theorem rbsp_trailing_bits_loop_spec :
    ∀ (n : Nat) (bb : BitBuffer), bb.pos ≤ 8 * bb.bytes.length → (8 - bb.pos % 8) % 8 = n →
      ((rbsp_trailing_bits_loop bb).1 = true ↔
        ∀ q, bb.pos ≤ q → q < bb.pos + n → bitAt bb.bytes q = 0) ∧
      ((rbsp_trailing_bits_loop bb).1 = true →
        (rbsp_trailing_bits_loop bb).2 = { bytes := bb.bytes, pos := bb.pos + n }) ∧
      (rbsp_trailing_bits_loop_trace bb).1 = rbsp_trailing_bits_loop bb ∧
      (rbsp_trailing_bits_loop_trace bb).2.2 = false ∧
      (rbsp_trailing_bits_loop_trace bb).2.1 ≤ n ∧
      bb.pos + (rbsp_trailing_bits_loop_trace bb).2.1 = (rbsp_trailing_bits_loop bb).2.pos ∧
      ((rbsp_trailing_bits_loop bb).1 = false →
        bb.pos < (rbsp_trailing_bits_loop bb).2.pos ∧
        bitAt bb.bytes ((rbsp_trailing_bits_loop bb).2.pos - 1) = 1) := by
  intro n
  induction n with
  | zero =>
    intro bb hv hn
    have ha : byte_aligned bb = true := by
      simp only [byte_aligned, BitBuffer.GetCurrentOffset, beq_iff_eq]
      omega
    rw [rbsp_trailing_bits_loop_aligned bb ha, rbsp_trailing_bits_loop_trace_aligned bb ha]
    refine ⟨⟨fun _ q h1 h2 => absurd h1 (by omega), fun _ => rfl⟩, fun _ => rfl, rfl, rfl,
      le_refl _, rfl, ?_⟩
    intro h
    cases h
  | succ n ih =>
    intro bb hv hn
    have ha : byte_aligned bb = false := by
      simp only [byte_aligned, BitBuffer.GetCurrentOffset, beq_eq_false_iff_ne, ne_eq]
      omega
    obtain ⟨hlt, hr⟩ := ReadBits_one_of_not_aligned bb hv ha
    rw [rbsp_trailing_bits_loop_read bb _ _ ha hr, rbsp_trailing_bits_loop_trace_read bb _ _ ha hr]
    by_cases hb : bitAt bb.bytes bb.pos ≠ 0
    · rw [if_pos hb, if_pos hb]
      have hb1 : bitAt bb.bytes bb.pos = 1 := by
        have := bitAt_le_one bb.bytes bb.pos
        omega
      refine ⟨⟨fun h => (by cases h), fun h => absurd (h bb.pos (le_refl _) (by omega)) hb⟩,
        fun h => (by cases h), rfl, rfl, (by simp only; omega), rfl, ?_⟩
      intro _
      simp only [Nat.add_sub_cancel]
      exact ⟨by omega, hb1⟩
    · rw [if_neg hb, if_neg hb]
      have hb0 : bitAt bb.bytes bb.pos = 0 := by omega
      obtain ⟨i1, i2, i3, i4, i5, i6, i7⟩ := ih { bytes := bb.bytes, pos := bb.pos + 1 }
        (by simp only; omega) (by simp only; omega)
      simp only at i1 i2 i3 i4 i5 i6 i7
      refine ⟨?_, ?_, ?_, i4, (by simp only; omega), (by simp only; omega), ?_⟩
      · rw [i1]
        constructor
        · intro h q h1 h2
          by_cases hq : q = bb.pos
          · rw [hq]; exact hb0
          · exact h q (by omega) (by omega)
        · intro h q h1 h2
          exact h q (by omega) (by omega)
      · intro h
        rw [i2 h]
        simp only [BitBuffer.mk.injEq, true_and]
        omega
      · rw [← i3]
      · intro h
        obtain ⟨j1, j2⟩ := i7 h
        exact ⟨by omega, j2⟩

theorem rbsp_trailing_bits_of_read (bb : BitBuffer) (v : Nat) (b1 : BitBuffer)
    (hr : bb.ReadBits 1 = some (v, b1)) :
    rbsp_trailing_bits bb = if v ≠ 1 then (false, b1) else rbsp_trailing_bits_loop b1 := by
  simp only [rbsp_trailing_bits, hr]

theorem ReadBits_one_eq_some (bb : BitBuffer) (v : Nat) (b1 : BitBuffer)
    (hr : bb.ReadBits 1 = some (v, b1)) :
    0 < bb.RemainingBitCount ∧ bb.pos + 1 ≤ 8 * bb.bytes.length ∧ v = bitAt bb.bytes bb.pos ∧
      b1 = { bytes := bb.bytes, pos := bb.pos + 1 } := by
  obtain ⟨h1, h2, _, h4⟩ := ReadBits_eq_some bb 1 v b1 hr
  refine ⟨by omega, ?_, ?_, h4⟩
  · simp only [BitBuffer.RemainingBitCount] at h1
    omega
  · rw [h2]
    simp [bitsValue]

/-- Claim C15: `rbsp_trailing_bits` returns true if and only if at least one bit remains, the
next bit is 1 and every bit after it up to the next byte boundary is 0; when it returns true the
cursor has consumed exactly these bits, between 1 and 8 of them, and is byte-aligned. -/
theorem C15_rbsp_trailing_bits (bb : BitBuffer) :
    ((rbsp_trailing_bits bb).1 = true ↔
      0 < bb.RemainingBitCount ∧ bitAt bb.bytes bb.pos = 1 ∧
        ∀ q, bb.pos < q → q < (bb.pos / 8 + 1) * 8 → bitAt bb.bytes q = 0) ∧
      ((rbsp_trailing_bits bb).1 = true →
        (rbsp_trailing_bits bb).2 = { bytes := bb.bytes, pos := (bb.pos / 8 + 1) * 8 } ∧
        byte_aligned (rbsp_trailing_bits bb).2 = true ∧
        1 ≤ (rbsp_trailing_bits bb).2.pos - bb.pos ∧
        (rbsp_trailing_bits bb).2.pos - bb.pos ≤ 8) := by
  cases hr : bb.ReadBits 1 with
  | none =>
    have hrem : bb.RemainingBitCount = 0 := by
      simp only [BitBuffer.ReadBits] at hr
      split at hr
      · cases hr
      · omega
    have hres : rbsp_trailing_bits bb = (false, bb) := by
      simp only [rbsp_trailing_bits, hr]
    rw [hres]
    refine ⟨⟨fun h => (by cases h), fun h => (by omega)⟩, fun h => (by cases h)⟩
  | some p =>
    obtain ⟨v, b1⟩ := p
    obtain ⟨hrem, hv, hval, hb1⟩ := ReadBits_one_eq_some bb v b1 hr
    rw [rbsp_trailing_bits_of_read bb v b1 hr]
    subst hb1
    by_cases h1 : v ≠ 1
    · rw [if_pos h1]
      refine ⟨⟨fun h => (by cases h), fun h => absurd (hval.trans h.2.1) h1⟩,
        fun h => (by cases h)⟩
    · rw [if_neg h1]
      have hv1 : bitAt bb.bytes bb.pos = 1 := by omega
      obtain ⟨s1, s2, -, -, -, -, -⟩ := rbsp_trailing_bits_loop_spec
        ((8 - (bb.pos + 1) % 8) % 8) { bytes := bb.bytes, pos := bb.pos + 1 } hv rfl
      simp only at s1 s2
      have hend : bb.pos + 1 + (8 - (bb.pos + 1) % 8) % 8 = (bb.pos / 8 + 1) * 8 := by omega
      rw [hend] at s1 s2
      refine ⟨?_, ?_⟩
      · rw [s1]
        constructor
        · intro h
          exact ⟨hrem, hv1, fun q hq1 hq2 => h q (by omega) hq2⟩
        · intro h q hq1 hq2
          exact h.2.2 q (by omega) hq2
      · intro h
        rw [s2 h]
        refine ⟨rfl, ?_, ?_, ?_⟩
        · simp only [byte_aligned, BitBuffer.GetCurrentOffset, beq_iff_eq]
          omega
        · simp only
          omega
        · simp only
          omega

/-- Claim C18: in `rbsp_trailing_bits`, once the read of the stop bit has succeeded, the alignment
loop never leaves through the branch of a failed read, every read of a padding bit at a cursor that
is inside the buffer and not byte-aligned succeeds, and the loop runs at most 7 iterations, ending
byte-aligned (result true) or just after a padding bit equal to 1 (result false). -/
theorem C18_padding_reads_succeed (bb : BitBuffer) (v : Nat) (b1 : BitBuffer)
    (hr : bb.ReadBits 1 = some (v, b1)) :
    (rbsp_trailing_bits_loop_trace b1).1 = rbsp_trailing_bits_loop b1 ∧
      (rbsp_trailing_bits_loop_trace b1).2.2 = false ∧
      (rbsp_trailing_bits_loop_trace b1).2.1 ≤ 7 ∧
      b1.pos + (rbsp_trailing_bits_loop_trace b1).2.1 = (rbsp_trailing_bits_loop b1).2.pos ∧
      ((rbsp_trailing_bits_loop b1).1 = true →
        byte_aligned (rbsp_trailing_bits_loop b1).2 = true) ∧
      ((rbsp_trailing_bits_loop b1).1 = false →
        b1.pos < (rbsp_trailing_bits_loop b1).2.pos ∧
        bitAt b1.bytes ((rbsp_trailing_bits_loop b1).2.pos - 1) = 1) ∧
      (∀ b : BitBuffer, b.bytes = b1.bytes → b.pos ≤ 8 * b.bytes.length →
        byte_aligned b = false → ∃ w b2, b.ReadBits 1 = some (w, b2)) := by
  obtain ⟨hrem, hv, hval, hb1⟩ := ReadBits_one_eq_some bb v b1 hr
  subst hb1
  obtain ⟨s1, s2, s3, s4, s5, s6, s7⟩ := rbsp_trailing_bits_loop_spec
    ((8 - (bb.pos + 1) % 8) % 8) { bytes := bb.bytes, pos := bb.pos + 1 } hv rfl
  refine ⟨s3, s4, by omega, s6, ?_, s7, ?_⟩
  · intro h
    rw [s2 h]
    simp only [byte_aligned, BitBuffer.GetCurrentOffset, beq_iff_eq]
    omega
  · intro b _ hb ha
    exact ⟨_, _, (ReadBits_one_of_not_aligned b hb ha).2⟩

/-! ## What the slice-group block stores -/

theorem readGolombs_spec :
    ∀ (n : Nat) (bb : BitBuffer) (vs : List Nat) (b : BitBuffer),
      readGolombs n bb = some (vs, b) →
      vs.length = n ∧ b.bytes = bb.bytes ∧ bb.pos + n ≤ b.pos ∧
        (0 < n → b.pos ≤ 8 * bb.bytes.length) ∧ ∀ x ∈ vs, x ≤ 2 ^ 32 - 2 := by
  intro n
  induction n with
  | zero =>
    intro bb vs b h
    simp only [readGolombs, Option.some.injEq, Prod.mk.injEq] at h
    obtain ⟨rfl, rfl⟩ := h
    exact ⟨rfl, rfl, le_refl _, fun h => absurd h (by omega), fun x hx => by cases hx⟩
  | succ n ih =>
    intro bb vs b h
    rw [readGolombs] at h
    cases hg : bb.ReadExponentialGolomb with
    | none => simp [hg] at h
    | some p =>
      obtain ⟨v, b1⟩ := p
      simp only [hg] at h
      cases hrest : readGolombs n b1 with
      | none => simp [hrest] at h
      | some q =>
        obtain ⟨ws, b2⟩ := q
        simp only [hrest, Option.some.injEq, Prod.mk.injEq] at h
        obtain ⟨rfl, rfl⟩ := h
        obtain ⟨zeros, suffix, _, _, _, _, hle, hb1, hin⟩ :=
          ReadExponentialGolomb_eq_some bb v b1 hg
        obtain ⟨i1, i2, i3, i4, i5⟩ := ih b1 ws b2 hrest
        subst hb1
        simp only at i2 i3 i4
        refine ⟨by simp [i1], i2, by omega, ?_, ?_⟩
        · intro _
          by_cases hn : 0 < n
          · exact i4 hn
          · have hn0 : n = 0 := by omega
            subst hn0
            simp only [readGolombs, Option.some.injEq, Prod.mk.injEq] at hrest
            rw [← hrest.2]
            simp only
            omega
        · intro x hx
          rcases List.mem_cons.1 hx with rfl | hx
          · exact hle
          · exact i5 x hx

theorem parseRunLengthLoop_spec :
    ∀ (n : Nat) (pps : PpsState) (bb : BitBuffer) (r : PpsState × BitBuffer),
      parseRunLengthLoop n pps bb = some r →
      ∃ vals, readGolombs n bb = some (vals, r.2) ∧
        r.1 = { pps with run_length_minus1 := pps.run_length_minus1 ++ vals } := by
  intro n
  induction n with
  | zero =>
    intro pps bb r h
    simp only [parseRunLengthLoop, Option.some.injEq] at h
    subst h
    exact ⟨[], rfl, by simp⟩
  | succ n ih =>
    intro pps bb r h
    rw [parseRunLengthLoop] at h
    cases hg : bb.ReadExponentialGolomb with
    | none => simp [hg] at h
    | some p =>
      obtain ⟨v, b1⟩ := p
      simp only [hg] at h
      obtain ⟨vals, hv, hr⟩ := ih _ b1 r h
      refine ⟨v :: vals, ?_, ?_⟩
      · simp only [readGolombs, hg, hv]
      · rw [hr]
        simp

theorem parseRectangleLoop_spec :
    ∀ (n : Nat) (pps : PpsState) (bb : BitBuffer) (r : PpsState × BitBuffer),
      parseRectangleLoop n pps bb = some r →
      ∃ tl br, tl.length = n ∧ br.length = n ∧
        readGolombs (2 * n) bb = some (interleave tl br, r.2) ∧
        r.1 = { pps with top_left := pps.top_left ++ tl,
                         bottom_right := pps.bottom_right ++ br } := by
  intro n
  induction n with
  | zero =>
    intro pps bb r h
    simp only [parseRectangleLoop, Option.some.injEq] at h
    subst h
    exact ⟨[], [], rfl, rfl, rfl, by simp⟩
  | succ n ih =>
    intro pps bb r h
    rw [parseRectangleLoop] at h
    cases hg : bb.ReadExponentialGolomb with
    | none => simp [hg] at h
    | some p =>
      obtain ⟨v, b1⟩ := p
      simp only [hg] at h
      cases hg2 : b1.ReadExponentialGolomb with
      | none => simp [hg2] at h
      | some p2 =>
        obtain ⟨v2, b2⟩ := p2
        simp only [hg2] at h
        obtain ⟨tl, br, h1, h2, h3, h4⟩ := ih _ b2 r h
        refine ⟨v :: tl, v2 :: br, by simp [h1], by simp [h2], ?_, ?_⟩
        · have e : 2 * (n + 1) = 2 * n + 1 + 1 := by ring
          rw [e]
          simp only [readGolombs, hg, hg2, h3, interleave]
        · rw [h4]
          simp

/-- A successful run of the slice-group block, case by case: skipped when
`num_slice_groups_minus1 = 0`, and otherwise the read of `slice_group_map_type` followed by the
one layout that the map type selects, or by nothing for the map types 1, 7, 8, ... -/
theorem parseSliceGroups_spec (pps : PpsState) (bb : BitBuffer) (r : PpsState × BitBuffer)
    (h : parseSliceGroups pps bb = some r) :
    (pps.num_slice_groups_minus1 = 0 ∧ r = (pps, bb)) ∨
    (0 < pps.num_slice_groups_minus1 ∧ ∃ (t : Nat) (bM : BitBuffer),
      bb.ReadExponentialGolomb = some (t, bM) ∧
      ((t = 0 ∧ ∃ vals, readGolombs pps.num_slice_groups_minus1 bM = some (vals, r.2) ∧
          r.1 = { pps with slice_group_map_type := t,
                           run_length_minus1 := pps.run_length_minus1 ++ vals }) ∨
       (t = 2 ∧ ∃ tl br, tl.length = pps.num_slice_groups_minus1 ∧
          br.length = pps.num_slice_groups_minus1 ∧
          readGolombs (2 * pps.num_slice_groups_minus1) bM = some (interleave tl br, r.2) ∧
          r.1 = { pps with slice_group_map_type := t, top_left := pps.top_left ++ tl,
                           bottom_right := pps.bottom_right ++ br }) ∨
       ((t = 3 ∨ t = 4 ∨ t = 5) ∧ ∃ (d : Nat) (bD : BitBuffer) (rate : Nat),
          bM.ReadBits 1 = some (d, bD) ∧ bD.ReadExponentialGolomb = some (rate, r.2) ∧
          r.1 = { pps with slice_group_map_type := t, slice_group_change_direction_flag := d,
                           slice_group_change_rate_minus1 := rate }) ∨
       (t = 6 ∧ ∃ (sz : Nat) (bS : BitBuffer) (x : Nat),
          bM.ReadExponentialGolomb = some (sz, bS) ∧
          bS.ReadBits (getSliceGroupIdLen pps.num_slice_groups_minus1) = some (x, r.2) ∧
          r.1 = { pps with slice_group_map_type := t, pic_size_in_map_units_minus1 := sz,
                           slice_group_id := pps.slice_group_id ++ [x] }) ∨
       ((t = 1 ∨ 6 < t) ∧ r = ({ pps with slice_group_map_type := t }, bM)))) := by
  unfold parseSliceGroups at h
  by_cases hn : pps.num_slice_groups_minus1 > 0
  · right
    simp only [if_pos hn, Option.bind_eq_bind, Option.bind_eq_some] at h
    obtain ⟨⟨t, bM⟩, ht, h⟩ := h
    refine ⟨hn, t, bM, ht, ?_⟩
    dsimp only at h
    split_ifs at h with c0 c2 c345 c6
    · left
      obtain ⟨vals, hv, hr⟩ := parseRunLengthLoop_spec _ _ _ _ h
      exact ⟨c0, vals, hv, hr⟩
    · right; left
      obtain ⟨tl, br, h1, h2, h3, h4⟩ := parseRectangleLoop_spec _ _ _ _ h
      exact ⟨c2, tl, br, h1, h2, h3, h4⟩
    · right; right; left
      simp only [Option.bind_eq_some, Option.some.injEq] at h
      obtain ⟨⟨d, bD⟩, hd, ⟨rate, bR⟩, hrate, hr⟩ := h
      subst hr
      exact ⟨c345, d, bD, rate, hd, hrate, rfl⟩
    · right; right; right; left
      simp only [Option.bind_eq_some, Option.some.injEq] at h
      obtain ⟨⟨sz, bS⟩, hsz, ⟨x, bX⟩, hx, hr⟩ := h
      subst hr
      exact ⟨c6, sz, bS, x, hsz, hx, rfl⟩
    · right; right; right; right
      simp only [Option.some.injEq] at h
      subst h
      refine ⟨?_, rfl⟩
      omega
  · left
    simp only [if_neg hn, Option.some.injEq] at h
    exact ⟨by omega, h.symm⟩

/-- A successful `ParsePps`, seen from the slice-group block: the five reads before it, the state
`p0` it starts from (nothing but these five fields written), the state `p6` it ends in, whose
slice-group fields are those of the result, and the read that follows it. -/
theorem ParsePps_layout (bb : BitBuffer) (pps : PpsState) (h : ParsePps bb = some pps) :
    ∃ (v1 v2 v3 v4 : Nat) (b1 b2 b3 b4 b5 b6 b7 : BitBuffer) (p6 : PpsState),
      bb.ReadExponentialGolomb = some (v1, b1) ∧
      b1.ReadExponentialGolomb = some (v2, b2) ∧
      b2.ReadBits 1 = some (v3, b3) ∧
      b3.ReadBits 1 = some (v4, b4) ∧
      b4.ReadExponentialGolomb = some (pps.num_slice_groups_minus1, b5) ∧
      parseSliceGroups
        { pic_parameter_set_id := v1, seq_parameter_set_id := v2, entropy_coding_mode_flag := v3,
          pic_order_present_flag := v4,
          num_slice_groups_minus1 := pps.num_slice_groups_minus1 } b5 = some (p6, b6) ∧
      b6.ReadExponentialGolomb = some (pps.num_ref_idx_l0_active_minus1, b7) ∧
      pps.slice_group_map_type = p6.slice_group_map_type ∧
      pps.run_length_minus1 = p6.run_length_minus1 ∧
      pps.top_left = p6.top_left ∧
      pps.bottom_right = p6.bottom_right ∧
      pps.slice_group_change_direction_flag = p6.slice_group_change_direction_flag ∧
      pps.slice_group_change_rate_minus1 = p6.slice_group_change_rate_minus1 ∧
      pps.pic_size_in_map_units_minus1 = p6.pic_size_in_map_units_minus1 ∧
      pps.slice_group_id = p6.slice_group_id := by
  obtain ⟨bbE, hf⟩ := (ParsePps_eq_some bb pps).1 h
  obtain ⟨v1, b1, v2, b2, v3, b3, v4, b4, v5, b5, p6, b6, v7, b7, v8, b8, v9, b9, v10, b10,
    v11, b11, v12, b12, v13, b13, v14, b14, v15, b15, v16,
    h1, h2, h3, h4, h5, h6, h7, -, -, -, -, -, -, -, -, -, e⟩ := ParsePpsFields_inv bb pps bbE hf
  have hn := parseSliceGroups_num _ _ _ h6
  have hv5 : pps.num_slice_groups_minus1 = v5 := by
    rw [e]
    exact hn
  subst e
  rw [← hv5] at h5 h6
  exact ⟨v1, v2, v3, v4, b1, b2, b3, b4, b5, b6, b7, p6, h1, h2, h3, h4, h5, h6, h7,
    rfl, rfl, rfl, rfl, rfl, rfl, rfl, rfl⟩

/-- Claim C12 fails as stated: with `num_slice_groups_minus1 = 1` and `slice_group_map_type = 1`
the parse succeeds, the slice-group block stores nothing but the map type and consumes no further
bit, and none of the four layouts is populated. -/
theorem C12_map_type_1_populates_nothing :
    ParsePps { bytes := [0xC4, 0xB1, 0xC4], pos := 0 } =
        some { num_slice_groups_minus1 := 1, slice_group_map_type := 1 } ∧
      ({ bytes := [0xC4, 0xB1, 0xC4], pos := 7 } : BitBuffer).ReadExponentialGolomb =
        some (1, { bytes := [0xC4, 0xB1, 0xC4], pos := 10 }) ∧
      parseSliceGroups { num_slice_groups_minus1 := 1 }
          { bytes := [0xC4, 0xB1, 0xC4], pos := 7 } =
        some ({ num_slice_groups_minus1 := 1, slice_group_map_type := 1 },
              { bytes := [0xC4, 0xB1, 0xC4], pos := 10 }) := by
  decide

/-- Claim C12 (amended): in every PpsState returned by `ParsePps`, if
`num_slice_groups_minus1 = 0` none of the four slice-group layouts is populated and the read
after `num_slice_groups_minus1` is `num_ref_idx_l0_active_minus1`; if
`num_slice_groups_minus1 > 0` at most one layout is populated, the one that
`slice_group_map_type` selects, with the values read from the bitstream right after
`slice_group_map_type` (0: the `num_slice_groups_minus1` exp-Golomb values of run_length_minus1;
2: the pairs of top_left and bottom_right; 3, 4, 5: the bit slice_group_change_direction_flag and
the exp-Golomb value slice_group_change_rate_minus1; 6: pic_size_in_map_units_minus1 and one
slice_group_id), and none for the map types 1 and above 6, where no bit is consumed; the fields
of the layouts not selected keep their initial empty or zero values. -/
theorem C12_variant_layouts (bb : BitBuffer) (pps : PpsState) (h : ParsePps bb = some pps) :
    ∃ (v1 v2 v3 v4 : Nat) (b1 b2 b3 b4 b5 : BitBuffer),
      bb.ReadExponentialGolomb = some (v1, b1) ∧
      b1.ReadExponentialGolomb = some (v2, b2) ∧
      b2.ReadBits 1 = some (v3, b3) ∧
      b3.ReadBits 1 = some (v4, b4) ∧
      b4.ReadExponentialGolomb = some (pps.num_slice_groups_minus1, b5) ∧
      (pps.num_slice_groups_minus1 = 0 →
        (∃ bN, b5.ReadExponentialGolomb = some (pps.num_ref_idx_l0_active_minus1, bN)) ∧
        pps.slice_group_map_type = 0 ∧ pps.run_length_minus1 = [] ∧ pps.top_left = [] ∧
        pps.bottom_right = [] ∧ pps.slice_group_change_direction_flag = 0 ∧
        pps.slice_group_change_rate_minus1 = 0 ∧ pps.pic_size_in_map_units_minus1 = 0 ∧
        pps.slice_group_id = []) ∧
      (0 < pps.num_slice_groups_minus1 →
        ∃ bM, b5.ReadExponentialGolomb = some (pps.slice_group_map_type, bM) ∧
        (pps.slice_group_map_type = 0 →
          (∃ bE bN, readGolombs pps.num_slice_groups_minus1 bM =
              some (pps.run_length_minus1, bE) ∧
            bE.ReadExponentialGolomb = some (pps.num_ref_idx_l0_active_minus1, bN)) ∧
          pps.run_length_minus1.length = pps.num_slice_groups_minus1 ∧ pps.top_left = [] ∧
          pps.bottom_right = [] ∧ pps.slice_group_change_direction_flag = 0 ∧
          pps.slice_group_change_rate_minus1 = 0 ∧ pps.pic_size_in_map_units_minus1 = 0 ∧
          pps.slice_group_id = []) ∧
        (pps.slice_group_map_type = 2 →
          (∃ bE bN, readGolombs (2 * pps.num_slice_groups_minus1) bM =
              some (interleave pps.top_left pps.bottom_right, bE) ∧
            bE.ReadExponentialGolomb = some (pps.num_ref_idx_l0_active_minus1, bN)) ∧
          pps.top_left.length = pps.num_slice_groups_minus1 ∧
          pps.bottom_right.length = pps.num_slice_groups_minus1 ∧ pps.run_length_minus1 = [] ∧
          pps.slice_group_change_direction_flag = 0 ∧ pps.slice_group_change_rate_minus1 = 0 ∧
          pps.pic_size_in_map_units_minus1 = 0 ∧ pps.slice_group_id = []) ∧
        (pps.slice_group_map_type = 3 ∨ pps.slice_group_map_type = 4 ∨
            pps.slice_group_map_type = 5 →
          (∃ bD bE bN, bM.ReadBits 1 = some (pps.slice_group_change_direction_flag, bD) ∧
            bD.ReadExponentialGolomb = some (pps.slice_group_change_rate_minus1, bE) ∧
            bE.ReadExponentialGolomb = some (pps.num_ref_idx_l0_active_minus1, bN)) ∧
          pps.run_length_minus1 = [] ∧ pps.top_left = [] ∧ pps.bottom_right = [] ∧
          pps.pic_size_in_map_units_minus1 = 0 ∧ pps.slice_group_id = []) ∧
        (pps.slice_group_map_type = 6 →
          (∃ (x : Nat) (bS bI bN : BitBuffer),
            bM.ReadExponentialGolomb = some (pps.pic_size_in_map_units_minus1, bS) ∧
            bS.ReadBits (getSliceGroupIdLen pps.num_slice_groups_minus1) = some (x, bI) ∧
            pps.slice_group_id = [x] ∧
            bI.ReadExponentialGolomb = some (pps.num_ref_idx_l0_active_minus1, bN)) ∧
          pps.slice_group_id.length = 1 ∧ pps.run_length_minus1 = [] ∧ pps.top_left = [] ∧
          pps.bottom_right = [] ∧ pps.slice_group_change_direction_flag = 0 ∧
          pps.slice_group_change_rate_minus1 = 0) ∧
        (pps.slice_group_map_type = 1 ∨ 6 < pps.slice_group_map_type →
          (∃ bN, bM.ReadExponentialGolomb = some (pps.num_ref_idx_l0_active_minus1, bN)) ∧
          pps.run_length_minus1 = [] ∧ pps.top_left = [] ∧ pps.bottom_right = [] ∧
          pps.slice_group_change_direction_flag = 0 ∧ pps.slice_group_change_rate_minus1 = 0 ∧
          pps.pic_size_in_map_units_minus1 = 0 ∧ pps.slice_group_id = [])) := by
  obtain ⟨v1, v2, v3, v4, b1, b2, b3, b4, b5, b6, b7, p6, h1, h2, h3, h4, h5, h6, h7,
    e1, e2, e3, e4, e5, e6, e7, e8⟩ := ParsePps_layout bb pps h
  refine ⟨v1, v2, v3, v4, b1, b2, b3, b4, b5, h1, h2, h3, h4, h5, ?_⟩
  rw [e1, e2, e3, e4, e5, e6, e7, e8]
  generalize pps.num_slice_groups_minus1 = n at h5 h6 ⊢
  rcases parseSliceGroups_spec _ _ _ h6 with ⟨h0, hr⟩ | ⟨hpos, t, bM, ht, hc⟩
  · simp only at h0
    simp only [Prod.mk.injEq] at hr
    obtain ⟨rfl, rfl⟩ := hr
    subst h0
    refine ⟨fun _ => ⟨⟨b7, h7⟩, rfl, rfl, rfl, rfl, rfl, rfl, rfl, rfl⟩,
      fun hp => absurd hp (by omega)⟩
  · simp only at hpos hc
    refine ⟨fun h0 => absurd hpos (by omega), fun _ => ?_⟩
    rcases hc with ⟨ht0, vals, hv, hr⟩ | ⟨ht0, tl, br, hl1, hl2, hv, hr⟩ |
      ⟨ht0, d, bD, rate, hd, hrate, hr⟩ | ⟨ht0, sz, bS, x, hsz, hx, hr⟩ | ⟨ht0, hr⟩
    · subst hr
      have hl := (readGolombs_spec _ _ _ _ hv).1
      refine ⟨bM, ht, fun _ => ⟨⟨b6, b7, by simpa using hv, h7⟩, by simpa using hl,
        rfl, rfl, rfl, rfl, rfl, rfl⟩, ?_, ?_, ?_, ?_⟩ <;>
        intro hc <;> simp only at hc <;> omega
    · subst hr
      refine ⟨bM, ht, ?_, fun _ => ⟨⟨b6, b7, by simpa using hv, h7⟩, by simpa using hl1,
        by simpa using hl2, rfl, rfl, rfl, rfl, rfl⟩, ?_, ?_, ?_⟩ <;>
        intro hc <;> simp only at hc <;> omega
    · subst hr
      refine ⟨bM, ht, ?_, ?_, fun _ => ⟨⟨bD, b6, b7, hd, hrate, h7⟩, rfl, rfl, rfl, rfl, rfl⟩,
        ?_, ?_⟩ <;> intro hc <;> simp only at hc <;> omega
    · subst hr
      refine ⟨bM, ht, ?_, ?_, ?_, fun _ => ⟨⟨x, bS, b6, b7, hsz, hx, by simp, h7⟩, by simp,
        rfl, rfl, rfl, rfl, rfl⟩, ?_⟩ <;> intro hc <;> simp only at hc <;> omega
    · simp only [Prod.mk.injEq] at hr
      obtain ⟨rfl, rfl⟩ := hr
      refine ⟨b6, ht, ?_, ?_, ?_, ?_, fun _ => ⟨⟨b7, h7⟩, rfl, rfl, rfl, rfl, rfl, rfl, rfl⟩⟩ <;>
        intro hc <;> simp only at hc <;> omega

/-- The converse of `ParsePpsFields_inv`: the reads, one after the other, make up a successful
run of the syntax-field reads. -/
theorem ParsePpsFields_intro (bb : BitBuffer)
    (v1 : Nat) (b1 : BitBuffer) (v2 : Nat) (b2 : BitBuffer) (v3 : Nat) (b3 : BitBuffer)
    (v4 : Nat) (b4 : BitBuffer) (v5 : Nat) (b5 : BitBuffer) (p6 : PpsState) (b6 : BitBuffer)
    (v7 : Nat) (b7 : BitBuffer) (v8 : Nat) (b8 : BitBuffer) (v9 : Nat) (b9 : BitBuffer)
    (v10 : Nat) (b10 : BitBuffer) (v11 : Int) (b11 : BitBuffer) (v12 : Int) (b12 : BitBuffer)
    (v13 : Int) (b13 : BitBuffer) (v14 : Nat) (b14 : BitBuffer) (v15 : Nat) (b15 : BitBuffer)
    (v16 : Nat) (bbE : BitBuffer)
    (h1 : bb.ReadExponentialGolomb = some (v1, b1))
    (h2 : b1.ReadExponentialGolomb = some (v2, b2))
    (h3 : b2.ReadBits 1 = some (v3, b3))
    (h4 : b3.ReadBits 1 = some (v4, b4))
    (h5 : b4.ReadExponentialGolomb = some (v5, b5))
    (h6 : parseSliceGroups
      { pic_parameter_set_id := v1, seq_parameter_set_id := v2, entropy_coding_mode_flag := v3,
        pic_order_present_flag := v4, num_slice_groups_minus1 := v5 } b5 = some (p6, b6))
    (h7 : b6.ReadExponentialGolomb = some (v7, b7))
    (h8 : b7.ReadExponentialGolomb = some (v8, b8))
    (h9 : b8.ReadBits 1 = some (v9, b9))
    (h10 : b9.ReadBits 2 = some (v10, b10))
    (h11 : b10.ReadSignedExponentialGolomb = some (v11, b11))
    (h12 : b11.ReadSignedExponentialGolomb = some (v12, b12))
    (h13 : b12.ReadSignedExponentialGolomb = some (v13, b13))
    (h14 : b13.ReadBits 1 = some (v14, b14))
    (h15 : b14.ReadBits 1 = some (v15, b15))
    (h16 : b15.ReadBits 1 = some (v16, bbE)) :
    ParsePpsFields bb = some ({ p6 with
        num_ref_idx_l0_active_minus1 := v7, num_ref_idx_l1_active_minus1 := v8,
        weighted_pred_flag := v9, weighted_bipred_idc := v10, pic_init_qp_minus26 := v11,
        pic_init_qs_minus26 := v12, chroma_qp_index_offset := v13,
        deblocking_filter_control_present_flag := v14, constrained_intra_pred_flag := v15,
        redundant_pic_cnt_present_flag := v16 }, bbE) := by
  simp only [ParsePpsFields, Option.bind_eq_bind, Option.some_bind, readField, h1, h2, h3, h4,
    h5, h6, h7, h8, h9, h10, h11, h12, h13, h14, h15, h16]

theorem C12_variant_layouts_witness :
    ParsePps { bytes := [0xC4, 0x48, 0x82, 0x47, 0x10], pos := 0 } =
        some { num_slice_groups_minus1 := 1, slice_group_map_type := 3,
               slice_group_change_direction_flag := 1, slice_group_change_rate_minus1 := 7,
               num_ref_idx_l0_active_minus1 := 3 } ∧
      ∃ bM bD bE bN : BitBuffer,
        bM.ReadBits 1 = some (1, bD) ∧ bD.ReadExponentialGolomb = some (7, bE) ∧
          bE.ReadExponentialGolomb = some (3, bN) := by
  refine ⟨by decide, ?_⟩
  obtain ⟨_, _, _, _, _, _, _, _, _, _, _, _, _, _, _, hp⟩ :=
    C12_variant_layouts { bytes := [0xC4, 0x48, 0x82, 0x47, 0x10], pos := 0 }
      { num_slice_groups_minus1 := 1, slice_group_map_type := 3,
        slice_group_change_direction_flag := 1, slice_group_change_rate_minus1 := 7,
        num_ref_idx_l0_active_minus1 := 3 } (by decide)
  obtain ⟨bM, _, _, _, h345, _, _⟩ := hp (by decide)
  obtain ⟨⟨bD, bE, bN, hd, hr, hn⟩, _⟩ := h345 (Or.inl rfl)
  exact ⟨bM, bD, bE, bN, hd, hr, hn⟩

/-- Claim C13: in every PpsState returned by `ParsePps` with `num_slice_groups_minus1 > 0`, for
map type 0 `run_length_minus1` has exactly `num_slice_groups_minus1` elements, and for map type 2
`top_left` and `bottom_right` each have exactly that many; the elements are the unsigned
exp-Golomb values that follow `slice_group_map_type` in the bitstream, in order, with
`top_left[i]` immediately before `bottom_right[i]`. -/
theorem C13_slice_group_loops (bb : BitBuffer) (pps : PpsState) (h : ParsePps bb = some pps)
    (hpos : 0 < pps.num_slice_groups_minus1) :
    ∃ (v1 v2 v3 v4 : Nat) (b1 b2 b3 b4 b5 bM : BitBuffer),
      bb.ReadExponentialGolomb = some (v1, b1) ∧
      b1.ReadExponentialGolomb = some (v2, b2) ∧
      b2.ReadBits 1 = some (v3, b3) ∧
      b3.ReadBits 1 = some (v4, b4) ∧
      b4.ReadExponentialGolomb = some (pps.num_slice_groups_minus1, b5) ∧
      b5.ReadExponentialGolomb = some (pps.slice_group_map_type, bM) ∧
      (pps.slice_group_map_type = 0 →
        pps.run_length_minus1.length = pps.num_slice_groups_minus1 ∧
        ∃ bE bN, readGolombs pps.num_slice_groups_minus1 bM =
            some (pps.run_length_minus1, bE) ∧
          bE.ReadExponentialGolomb = some (pps.num_ref_idx_l0_active_minus1, bN)) ∧
      (pps.slice_group_map_type = 2 →
        pps.top_left.length = pps.num_slice_groups_minus1 ∧
        pps.bottom_right.length = pps.num_slice_groups_minus1 ∧
        ∃ bE bN, readGolombs (2 * pps.num_slice_groups_minus1) bM =
            some (interleave pps.top_left pps.bottom_right, bE) ∧
          bE.ReadExponentialGolomb = some (pps.num_ref_idx_l0_active_minus1, bN)) := by
  obtain ⟨v1, v2, v3, v4, b1, b2, b3, b4, b5, b6, b7, p6, h1, h2, h3, h4, h5, h6, h7,
    e1, e2, e3, e4, e5, e6, e7, e8⟩ := ParsePps_layout bb pps h
  rw [e1, e2, e3, e4]
  generalize pps.num_slice_groups_minus1 = n at h5 h6 hpos ⊢
  rcases parseSliceGroups_spec _ _ _ h6 with ⟨h0, hr⟩ | ⟨-, t, bM, ht, hc⟩
  · simp only at h0
    omega
  · simp only at hc
    rcases hc with ⟨ht0, vals, hv, hr⟩ | ⟨ht0, tl, br, hl1, hl2, hv, hr⟩ |
      ⟨ht0, d, bD, rate, -, -, hr⟩ | ⟨ht0, sz, bS, x, -, -, hr⟩ | ⟨ht0, hr⟩
    · subst hr
      have hl := (readGolombs_spec _ _ _ _ hv).1
      refine ⟨v1, v2, v3, v4, b1, b2, b3, b4, b5, bM, h1, h2, h3, h4, h5, ht, ?_, ?_⟩
      · intro _
        simp only [List.nil_append]
        exact ⟨hl, b6, b7, hv, h7⟩
      · intro hc
        simp only at hc
        omega
    · subst hr
      refine ⟨v1, v2, v3, v4, b1, b2, b3, b4, b5, bM, h1, h2, h3, h4, h5, ht, ?_, ?_⟩
      · intro hc
        simp only at hc
        omega
      · intro _
        simp only [List.nil_append]
        exact ⟨hl1, hl2, b6, b7, hv, h7⟩
    · subst hr
      refine ⟨v1, v2, v3, v4, b1, b2, b3, b4, b5, bM, h1, h2, h3, h4, h5, ht, ?_, ?_⟩ <;>
        intro hc <;> simp only at hc <;> omega
    · subst hr
      refine ⟨v1, v2, v3, v4, b1, b2, b3, b4, b5, bM, h1, h2, h3, h4, h5, ht, ?_, ?_⟩ <;>
        intro hc <;> simp only at hc <;> omega
    · simp only [Prod.mk.injEq] at hr
      obtain ⟨rfl, -⟩ := hr
      refine ⟨v1, v2, v3, v4, b1, b2, b3, b4, b5, bM, h1, h2, h3, h4, h5, ht, ?_, ?_⟩ <;>
        intro hc <;> simp only at hc <;> omega

theorem C13_slice_group_loops_witness :
    ParsePps { bytes := [0xC6, 0xD3, 0x90, 0x91, 0xC4], pos := 0 } =
        some { num_slice_groups_minus1 := 2, slice_group_map_type := 2, top_left := [1, 0],
               bottom_right := [2, 3], num_ref_idx_l0_active_minus1 := 3 } ∧
      0 < ({ num_slice_groups_minus1 := 2, slice_group_map_type := 2, top_left := [1, 0],
             bottom_right := [2, 3], num_ref_idx_l0_active_minus1 := 3 } :
            PpsState).num_slice_groups_minus1 ∧
      ∃ bM bE : BitBuffer, readGolombs (2 * 2) bM = some ([1, 2, 0, 3], bE) := by
  refine ⟨by decide, by decide, ?_⟩
  obtain ⟨_, _, _, _, _, _, _, _, _, bM, _, _, _, _, _, _, _, h2⟩ :=
    C13_slice_group_loops { bytes := [0xC6, 0xD3, 0x90, 0x91, 0xC4], pos := 0 }
      { num_slice_groups_minus1 := 2, slice_group_map_type := 2, top_left := [1, 0],
        bottom_right := [2, 3], num_ref_idx_l0_active_minus1 := 3 } (by decide) (by decide)
  obtain ⟨_, _, bE, _, hg, _⟩ := h2 rfl
  exact ⟨bM, bE, hg⟩

/-- Claim C16: in every PpsState returned by `ParsePps` with `num_slice_groups_minus1 > 0` and
`slice_group_map_type = 6`, `slice_group_id` has exactly one element, whatever
`pic_size_in_map_units_minus1` is; the element is the field of `getSliceGroupIdLen()` bits read
immediately after `pic_size_in_map_units_minus1`, and it is less than `2^getSliceGroupIdLen()`. -/
theorem C16_slice_group_id (bb : BitBuffer) (pps : PpsState) (h : ParsePps bb = some pps)
    (hpos : 0 < pps.num_slice_groups_minus1) (h6 : pps.slice_group_map_type = 6) :
    pps.slice_group_id.length = 1 ∧
    ∃ (v1 v2 v3 v4 x : Nat) (b1 b2 b3 b4 b5 bM bS bI bN : BitBuffer),
      bb.ReadExponentialGolomb = some (v1, b1) ∧
      b1.ReadExponentialGolomb = some (v2, b2) ∧
      b2.ReadBits 1 = some (v3, b3) ∧
      b3.ReadBits 1 = some (v4, b4) ∧
      b4.ReadExponentialGolomb = some (pps.num_slice_groups_minus1, b5) ∧
      b5.ReadExponentialGolomb = some (6, bM) ∧
      bM.ReadExponentialGolomb = some (pps.pic_size_in_map_units_minus1, bS) ∧
      bS.ReadBits (getSliceGroupIdLen pps.num_slice_groups_minus1) = some (x, bI) ∧
      bI.ReadExponentialGolomb = some (pps.num_ref_idx_l0_active_minus1, bN) ∧
      pps.slice_group_id = [x] ∧
      x < 2 ^ getSliceGroupIdLen pps.num_slice_groups_minus1 := by
  obtain ⟨v1, v2, v3, v4, b1, b2, b3, b4, b5, b6, b7, p6, h1, h2, h3, h4, h5, hs, h7,
    e1, e2, e3, e4, e5, e6, e7, e8⟩ := ParsePps_layout bb pps h
  rw [e1] at h6
  rw [e7, e8]
  generalize pps.num_slice_groups_minus1 = n at h5 hs hpos ⊢
  rcases parseSliceGroups_spec _ _ _ hs with ⟨h0, hr⟩ | ⟨-, t, bM, ht, hc⟩
  · simp only at h0
    omega
  · simp only at hc
    rcases hc with ⟨ht0, vals, hv, hr⟩ | ⟨ht0, tl, br, hl1, hl2, hv, hr⟩ |
      ⟨ht0, d, bD, rate, -, -, hr⟩ | ⟨ht0, sz, bS, x, hsz, hx, hr⟩ | ⟨ht0, hr⟩
    · subst hr
      simp only at h6
      omega
    · subst hr
      simp only at h6
      omega
    · subst hr
      simp only at h6
      omega
    · subst hr
      subst ht0
      simp only [List.nil_append, List.length_singleton, true_and]
      exact ⟨v1, v2, v3, v4, x, b1, b2, b3, b4, b5, bM, bS, b6, b7, h1, h2, h3, h4, h5, ht,
        hsz, hx, h7, rfl, (ReadBits_eq_some _ _ _ _ hx).2.2.1⟩
    · simp only [Prod.mk.injEq] at hr
      obtain ⟨rfl, -⟩ := hr
      simp only at h6
      omega

/-- A PPS with three slice groups and map type 6, parsed read by read:
`pic_size_in_map_units_minus1 = 4` and one 2-bit `slice_group_id` of value 2. -/
theorem ParsePps_map_type_6_example :
    ParsePps { bytes := [0xC6, 0x72, 0xC4, 0x8E, 0x20], pos := 0 } =
      some { num_slice_groups_minus1 := 2, slice_group_map_type := 6,
             pic_size_in_map_units_minus1 := 4, slice_group_id := [2],
             num_ref_idx_l0_active_minus1 := 3 } := by
  have hlen : getSliceGroupIdLen 2 = 2 := by simp [getSliceGroupIdLen, Nat.clog]
  have r1 : ({ bytes := [0xC6, 0x72, 0xC4, 0x8E, 0x20], pos := 7 } :
      BitBuffer).ReadExponentialGolomb =
      some (6, { bytes := [0xC6, 0x72, 0xC4, 0x8E, 0x20], pos := 12 }) := by decide
  have r2 : ({ bytes := [0xC6, 0x72, 0xC4, 0x8E, 0x20], pos := 12 } :
      BitBuffer).ReadExponentialGolomb =
      some (4, { bytes := [0xC6, 0x72, 0xC4, 0x8E, 0x20], pos := 17 }) := by decide
  have r3 : ({ bytes := [0xC6, 0x72, 0xC4, 0x8E, 0x20], pos := 17 } : BitBuffer).ReadBits 2 =
      some (2, { bytes := [0xC6, 0x72, 0xC4, 0x8E, 0x20], pos := 19 }) := by decide
  have hs : parseSliceGroups { num_slice_groups_minus1 := 2 }
      { bytes := [0xC6, 0x72, 0xC4, 0x8E, 0x20], pos := 7 } =
      some ({ num_slice_groups_minus1 := 2, slice_group_map_type := 6,
              pic_size_in_map_units_minus1 := 4, slice_group_id := [2] },
            { bytes := [0xC6, 0x72, 0xC4, 0x8E, 0x20], pos := 19 }) := by
    simp [parseSliceGroups, r1, r2, r3, hlen]
  exact (ParsePps_eq_some _ _).2 ⟨{ bytes := [0xC6, 0x72, 0xC4, 0x8E, 0x20], pos := 34 },
    ParsePpsFields_intro { bytes := [0xC6, 0x72, 0xC4, 0x8E, 0x20], pos := 0 }
      0 { bytes := [0xC6, 0x72, 0xC4, 0x8E, 0x20], pos := 1 }
      0 { bytes := [0xC6, 0x72, 0xC4, 0x8E, 0x20], pos := 2 }
      0 { bytes := [0xC6, 0x72, 0xC4, 0x8E, 0x20], pos := 3 }
      0 { bytes := [0xC6, 0x72, 0xC4, 0x8E, 0x20], pos := 4 }
      2 { bytes := [0xC6, 0x72, 0xC4, 0x8E, 0x20], pos := 7 }
      _ { bytes := [0xC6, 0x72, 0xC4, 0x8E, 0x20], pos := 19 }
      3 { bytes := [0xC6, 0x72, 0xC4, 0x8E, 0x20], pos := 24 }
      0 { bytes := [0xC6, 0x72, 0xC4, 0x8E, 0x20], pos := 25 }
      0 { bytes := [0xC6, 0x72, 0xC4, 0x8E, 0x20], pos := 26 }
      0 { bytes := [0xC6, 0x72, 0xC4, 0x8E, 0x20], pos := 28 }
      0 { bytes := [0xC6, 0x72, 0xC4, 0x8E, 0x20], pos := 29 }
      0 { bytes := [0xC6, 0x72, 0xC4, 0x8E, 0x20], pos := 30 }
      0 { bytes := [0xC6, 0x72, 0xC4, 0x8E, 0x20], pos := 31 }
      0 { bytes := [0xC6, 0x72, 0xC4, 0x8E, 0x20], pos := 32 }
      0 { bytes := [0xC6, 0x72, 0xC4, 0x8E, 0x20], pos := 33 }
      0 { bytes := [0xC6, 0x72, 0xC4, 0x8E, 0x20], pos := 34 }
      (by decide) (by decide) (by decide) (by decide) (by decide) hs (by decide) (by decide)
      (by decide) (by decide) (by decide) (by decide) (by decide) (by decide) (by decide)
      (by decide)⟩

theorem C16_slice_group_id_witness :
    ParsePps { bytes := [0xC6, 0x72, 0xC4, 0x8E, 0x20], pos := 0 } =
        some { num_slice_groups_minus1 := 2, slice_group_map_type := 6,
               pic_size_in_map_units_minus1 := 4, slice_group_id := [2],
               num_ref_idx_l0_active_minus1 := 3 } ∧
      ({ num_slice_groups_minus1 := 2, slice_group_map_type := 6,
         pic_size_in_map_units_minus1 := 4, slice_group_id := [2],
         num_ref_idx_l0_active_minus1 := 3 } : PpsState).slice_group_id.length = 1 ∧
      ∃ (x : Nat) (bS bI : BitBuffer),
        bS.ReadBits (getSliceGroupIdLen 2) = some (x, bI) ∧ [2] = [x] ∧
          x < 2 ^ getSliceGroupIdLen 2 := by
  obtain ⟨hl, _, _, _, _, x, _, _, _, _, _, _, bS, bI, _, _, _, _, _, _, _, _, hx, _, he, hlt⟩ :=
    C16_slice_group_id { bytes := [0xC6, 0x72, 0xC4, 0x8E, 0x20], pos := 0 }
      { num_slice_groups_minus1 := 2, slice_group_map_type := 6,
        pic_size_in_map_units_minus1 := 4, slice_group_id := [2],
        num_ref_idx_l0_active_minus1 := 3 } ParsePps_map_type_6_example (by decide) rfl
  exact ⟨ParsePps_map_type_6_example, hl, x, bS, bI, hx, he, hlt⟩

theorem C18_padding_reads_succeed_witness :
    ({ bytes := [0x80], pos := 0 } : BitBuffer).ReadBits 1 =
        some (1, { bytes := [0x80], pos := 1 }) ∧
      (rbsp_trailing_bits_loop_trace { bytes := [0x80], pos := 1 }).2.2 = false ∧
      (rbsp_trailing_bits_loop_trace { bytes := [0x80], pos := 1 }).2.1 ≤ 7 :=
  ⟨by decide,
    (C18_padding_reads_succeed { bytes := [0x80], pos := 0 } 1 { bytes := [0x80], pos := 1 }
      (by decide)).2.1,
    (C18_padding_reads_succeed { bytes := [0x80], pos := 0 } 1 { bytes := [0x80], pos := 1 }
      (by decide)).2.2.1⟩

/-! ## The slice-group loops are bounded by the bits of the buffer -/

theorem ReadExponentialGolomb_consumes (bb : BitBuffer) (v : Nat) (b1 : BitBuffer)
    (h : bb.ReadExponentialGolomb = some (v, b1)) :
    bb.pos + 1 ≤ b1.pos ∧ b1.pos ≤ 8 * bb.bytes.length ∧ b1.bytes = bb.bytes := by
  obtain ⟨zeros, suffix, _, _, _, _, _, hb1, hin⟩ := ReadExponentialGolomb_eq_some bb v b1 h
  subst hb1
  exact ⟨by simp only; omega, hin, rfl⟩

/-- The loop over `k + m` groups is the loop over the first `k` groups followed by the loop over
the other `m`. -/
theorem parseRunLengthLoop_add (k m : Nat) :
    ∀ (pps : PpsState) (bb : BitBuffer),
      parseRunLengthLoop (k + m) pps bb =
        (parseRunLengthLoop k pps bb).bind (fun r => parseRunLengthLoop m r.1 r.2) := by
  induction k with
  | zero =>
    intro pps bb
    simp [parseRunLengthLoop]
  | succ k ih =>
    intro pps bb
    have e : k + 1 + m = (k + m) + 1 := by omega
    rw [e, parseRunLengthLoop, parseRunLengthLoop]
    cases hg : bb.ReadExponentialGolomb with
    | none => rfl
    | some p =>
      obtain ⟨v, b1⟩ := p
      exact ih _ b1

theorem parseRectangleLoop_add (k m : Nat) :
    ∀ (pps : PpsState) (bb : BitBuffer),
      parseRectangleLoop (k + m) pps bb =
        (parseRectangleLoop k pps bb).bind (fun r => parseRectangleLoop m r.1 r.2) := by
  induction k with
  | zero =>
    intro pps bb
    simp [parseRectangleLoop]
  | succ k ih =>
    intro pps bb
    have e : k + 1 + m = (k + m) + 1 := by omega
    rw [e, parseRectangleLoop, parseRectangleLoop]
    cases hg : bb.ReadExponentialGolomb with
    | none => rfl
    | some p =>
      obtain ⟨v, b1⟩ := p
      simp only
      cases hg2 : b1.ReadExponentialGolomb with
      | none => rfl
      | some p2 =>
        obtain ⟨v2, b2⟩ := p2
        exact ih _ b2

theorem readGolombs_le_remaining (n : Nat) (bb : BitBuffer) (vs : List Nat) (b : BitBuffer)
    (h : readGolombs n bb = some (vs, b)) : n ≤ bb.RemainingBitCount := by
  obtain ⟨_, _, h3, h4, _⟩ := readGolombs_spec n bb vs b h
  simp only [BitBuffer.RemainingBitCount]
  by_cases hn : 0 < n
  · have := h4 hn
    omega
  · omega

theorem parseRunLengthLoop_le_remaining (k : Nat) (pps : PpsState) (bb : BitBuffer)
    (r : PpsState × BitBuffer) (h : parseRunLengthLoop k pps bb = some r) :
    k ≤ bb.RemainingBitCount := by
  obtain ⟨vals, hv, _⟩ := parseRunLengthLoop_spec k pps bb r h
  exact readGolombs_le_remaining _ _ _ _ hv

theorem parseRectangleLoop_le_remaining (k : Nat) (pps : PpsState) (bb : BitBuffer)
    (r : PpsState × BitBuffer) (h : parseRectangleLoop k pps bb = some r) :
    2 * k ≤ bb.RemainingBitCount := by
  obtain ⟨tl, br, _, _, hv, _⟩ := parseRectangleLoop_spec k pps bb r h
  exact readGolombs_le_remaining _ _ _ _ hv

/-- In a successful parse the three loop-filled sequences are no longer than the buffer has
bits. -/
theorem ParsePps_lengths_le (bb : BitBuffer) (pps : PpsState) (h : ParsePps bb = some pps) :
    pps.run_length_minus1.length ≤ 8 * bb.bytes.length ∧
      pps.top_left.length ≤ 8 * bb.bytes.length ∧
      pps.bottom_right.length ≤ 8 * bb.bytes.length := by
  obtain ⟨v1, v2, v3, v4, b1, b2, b3, b4, b5, b6, b7, p6, h1, h2, h3, h4, h5, h6, h7,
    e1, e2, e3, e4, e5, e6, e7, e8⟩ := ParsePps_layout bb pps h
  rw [e2, e3, e4]
  have c1 := (ReadExponentialGolomb_consumes _ _ _ h1).2.2
  have c2 := (ReadExponentialGolomb_consumes _ _ _ h2).2.2
  have c3 := (ReadBits_eq_some _ _ _ _ h3).2.2.2
  have c4 := (ReadBits_eq_some _ _ _ _ h4).2.2.2
  have c5 := (ReadExponentialGolomb_consumes _ _ _ h5).2.2
  have hb5 : b5.bytes = bb.bytes := by
    rw [c5, c4]
    simp only
    rw [c3]
    simp only
    rw [c2, c1]
  generalize pps.num_slice_groups_minus1 = n at h5 h6 ⊢
  rcases parseSliceGroups_spec _ _ _ h6 with ⟨h0, hr⟩ | ⟨-, t, bM, ht, hc⟩
  · simp only [Prod.mk.injEq] at hr
    obtain ⟨rfl, -⟩ := hr
    simp
  · have hbM : bM.bytes = bb.bytes := (ReadExponentialGolomb_consumes _ _ _ ht).2.2.trans hb5
    simp only at hc
    rcases hc with ⟨ht0, vals, hv, hr⟩ | ⟨ht0, tl, br, hl1, hl2, hv, hr⟩ |
      ⟨ht0, d, bD, rate, -, -, hr⟩ | ⟨ht0, sz, bS, x, -, -, hr⟩ | ⟨ht0, hr⟩
    · subst hr
      have hl := (readGolombs_spec _ _ _ _ hv).1
      have hle := readGolombs_le_remaining _ _ _ _ hv
      simp only [BitBuffer.RemainingBitCount, hbM] at hle
      simp only [List.nil_append, List.length_nil, hl]
      omega
    · subst hr
      have hle := readGolombs_le_remaining _ _ _ _ hv
      simp only [BitBuffer.RemainingBitCount, hbM] at hle
      simp only [List.nil_append, List.length_nil, hl1, hl2]
      omega
    · subst hr
      simp
    · subst hr
      simp
    · simp only [Prod.mk.injEq] at hr
      obtain ⟨rfl, -⟩ := hr
      simp

/-- Claim C20: `ParsePps` returns on every buffer, with or without a result.  Every iteration of
the two slice-group loops either aborts or consumes at least one bit (each of its exp-Golomb reads
does), so after `k` successful iterations at least `k` bits (for map type 2, `2 * k` bits) have
gone by, whatever the loop bound `num_slice_groups_minus1` is: with the bound `2^32 - 2` and a
10-byte buffer the parse aborts.  In every successful result `run_length_minus1`, `top_left` and
`bottom_right` have at most as many elements as the buffer has bits. -/
theorem C20_slice_group_loops_bounded :
    (∀ bb : BitBuffer, ParsePps bb = none ∨ ∃ pps, ParsePps bb = some pps) ∧
    (∀ (bb : BitBuffer) (v : Nat) (b1 : BitBuffer), bb.ReadExponentialGolomb = some (v, b1) →
      bb.pos + 1 ≤ b1.pos ∧ b1.pos ≤ 8 * bb.bytes.length ∧ b1.bytes = bb.bytes) ∧
    (∀ (k m : Nat) (pps : PpsState) (bb : BitBuffer),
      parseRunLengthLoop (k + m) pps bb =
        (parseRunLengthLoop k pps bb).bind (fun r => parseRunLengthLoop m r.1 r.2)) ∧
    (∀ (k m : Nat) (pps : PpsState) (bb : BitBuffer),
      parseRectangleLoop (k + m) pps bb =
        (parseRectangleLoop k pps bb).bind (fun r => parseRectangleLoop m r.1 r.2)) ∧
    (∀ (k : Nat) (pps : PpsState) (bb : BitBuffer) (r : PpsState × BitBuffer),
      parseRunLengthLoop k pps bb = some r → k ≤ bb.RemainingBitCount) ∧
    (∀ (k : Nat) (pps : PpsState) (bb : BitBuffer) (r : PpsState × BitBuffer),
      parseRectangleLoop k pps bb = some r → 2 * k ≤ bb.RemainingBitCount) ∧
    (∀ (bb : BitBuffer) (pps : PpsState), ParsePps bb = some pps →
      pps.run_length_minus1.length ≤ 8 * bb.bytes.length ∧
      pps.top_left.length ≤ 8 * bb.bytes.length ∧
      pps.bottom_right.length ≤ 8 * bb.bytes.length) ∧
    (({ bytes := [0xC0, 0x00, 0x00, 0x00, 0x1F, 0xFF, 0xFF, 0xFF, 0xF3, 0x00], pos := 4 } :
        BitBuffer).ReadExponentialGolomb =
        some (2 ^ 32 - 2,
          { bytes := [0xC0, 0x00, 0x00, 0x00, 0x1F, 0xFF, 0xFF, 0xFF, 0xF3, 0x00], pos := 67 }) ∧
      ParsePps
        { bytes := [0xC0, 0x00, 0x00, 0x00, 0x1F, 0xFF, 0xFF, 0xFF, 0xF3, 0x00], pos := 0 } =
        none) := by
  refine ⟨?_, ReadExponentialGolomb_consumes, parseRunLengthLoop_add, parseRectangleLoop_add,
    parseRunLengthLoop_le_remaining, parseRectangleLoop_le_remaining, ParsePps_lengths_le,
    by decide, by decide⟩
  intro bb
  cases h : ParsePps bb with
  | none => exact Or.inl rfl
  | some pps => exact Or.inr ⟨pps, rfl⟩

end h264nal
